import Mathlib

/-!
Verification of the cite-right citation engine against its specification.

The definitions below are a shallow embedding of the Python sources:

* `src/cite_right/core/aligner_py.py` — the Smith–Waterman local aligner
  (`SmithWatermanAligner.align`, `_choose_direction`, `_traceback_details`);
* `src/cite_right/text/passage.py` — passage windowing
  (`generate_passages`, `_window_from_segments`);
* `src/cite_right/text/tokenizer.py` — the simple tokenizer
  (`SimpleTokenizer.tokenize`, `_iter_token_spans`, `_normalize_token`).

Python strings are modelled as `List Char`, Python ints as `Int` (token ids and
indices that are always non-negative use `Nat`).  Unicode character classes
(`str.isdigit`, `str.isalnum`) and the NFKC + casefold base normalisation are
external data in the Python runtime; they enter the embedding as explicit
function parameters, so every theorem quantifies over them.
-/

namespace CiteRight

/-- Direction constants for Smith–Waterman traceback (class `Direction`). -/
inductive Direction where
  | STOP
  | DIAGONAL
  | UP
  | LEFT
deriving DecidableEq, Repr

/-- The `Alignment` record from `core/results.py` (fields the aligner sets). -/
structure Alignment where
  score : Int
  token_start : Nat
  token_end : Nat
  query_start : Nat
  query_end : Nat
  «matches» : Nat
  match_blocks : List (Nat × Nat)
deriving DecidableEq, Repr

/-- The zero alignment returned on degenerate inputs,
`Alignment(score=0, token_start=0, token_end=0)` with defaulted fields. -/
def zeroAlignment : Alignment := ⟨0, 0, 0, 0, 0, 0, []⟩

/-- Fuel-indexed Smith–Waterman score matrix; `fuel ≥ i + j` makes the value
independent of `fuel` (see `Hfuel_irrel`), and recursion on the fuel keeps the
function structurally recursive (it evaluates inside the kernel). -/
def Hfuel (ms mms gs : Int) (q c : List Int) : Nat → Nat → Nat → Int
  | _, 0, _ => 0
  | _, _ + 1, 0 => 0
  | 0, _ + 1, _ + 1 => 0
  | fuel + 1, i + 1, j + 1 =>
    let mat := if q.getD i 0 = c.getD j 0 then ms else mms
    let scoreDiag := Hfuel ms mms gs q c fuel i j + mat
    let scoreUp := Hfuel ms mms gs q c fuel i (j + 1) + gs
    let scoreLeft := Hfuel ms mms gs q c fuel (i + 1) j + gs
    let best := max (max (max 0 scoreDiag) scoreUp) scoreLeft
    if best ≤ 0 then 0 else best

/-- The Smith–Waterman score matrix built cell by cell in
`SmithWatermanAligner.align`: `H ms mms gs q c i j` is `scores[i][j]`
after the double loop, for `q = seq1`, `c = seq2`. -/
def H (ms mms gs : Int) (q c : List Int) (i j : Nat) : Int :=
  Hfuel ms mms gs q c (i + j) i j

theorem Hfuel_irrel (ms mms gs : Int) (q c : List Int) :
    ∀ fuel1 fuel2 i j, i + j ≤ fuel1 → i + j ≤ fuel2 →
      Hfuel ms mms gs q c fuel1 i j = Hfuel ms mms gs q c fuel2 i j := by
  intro fuel1
  induction fuel1 with
  | zero =>
    intro fuel2 i j h1 h2
    match i, j with
    | 0, _ =>
      cases fuel2 with
      | zero => rfl
      | succ f2 => rfl
    | i + 1, 0 =>
      cases fuel2 with
      | zero => rfl
      | succ f2 => rfl
    | i + 1, j + 1 => omega
  | succ f1 ih =>
    intro fuel2 i j h1 h2
    match i, j with
    | 0, _ =>
      cases fuel2 with
      | zero => rfl
      | succ f2 => rfl
    | i + 1, 0 =>
      cases fuel2 with
      | zero => rfl
      | succ f2 => rfl
    | i + 1, j + 1 =>
      match fuel2, h2 with
      | f2 + 1, h2 =>
        show (let mat := if q.getD i 0 = c.getD j 0 then ms else mms
          let scoreDiag := Hfuel ms mms gs q c f1 i j + mat
          let scoreUp := Hfuel ms mms gs q c f1 i (j + 1) + gs
          let scoreLeft := Hfuel ms mms gs q c f1 (i + 1) j + gs
          let best := max (max (max 0 scoreDiag) scoreUp) scoreLeft
          if best ≤ 0 then 0 else best) =
          (let mat := if q.getD i 0 = c.getD j 0 then ms else mms
          let scoreDiag := Hfuel ms mms gs q c f2 i j + mat
          let scoreUp := Hfuel ms mms gs q c f2 i (j + 1) + gs
          let scoreLeft := Hfuel ms mms gs q c f2 (i + 1) j + gs
          let best := max (max (max 0 scoreDiag) scoreUp) scoreLeft
          if best ≤ 0 then 0 else best)
        rw [ih f2 i j (by omega) (by omega), ih f2 i (j + 1) (by omega) (by omega),
          ih f2 (i + 1) j (by omega) (by omega)]

theorem H_zero_left (ms mms gs : Int) (q c : List Int) (j : Nat) :
    H ms mms gs q c 0 j = 0 := by
  unfold H
  cases j with
  | zero => rfl
  | succ j => rfl

theorem H_zero_right (ms mms gs : Int) (q c : List Int) (i : Nat) :
    H ms mms gs q c (i + 1) 0 = 0 := rfl

/-- `_choose_direction` from `aligner_py.py`. -/
def _choose_direction (best scoreDiag scoreUp scoreLeft : Int) : Direction :=
  if best = scoreDiag then Direction.DIAGONAL
  else if best = scoreUp then Direction.UP
  else Direction.LEFT

/-- The traceback pointer matrix `directions[i][j]` recorded by
`SmithWatermanAligner.align` (row 0 and column 0 keep their initial STOP). -/
def dirAt (ms mms gs : Int) (q c : List Int) : Nat → Nat → Direction
  | 0, _ => Direction.STOP
  | _ + 1, 0 => Direction.STOP
  | i + 1, j + 1 =>
    let mat := if q.getD i 0 = c.getD j 0 then ms else mms
    let scoreDiag := H ms mms gs q c i j + mat
    let scoreUp := H ms mms gs q c i (j + 1) + gs
    let scoreLeft := H ms mms gs q c (i + 1) j + gs
    let best := max (max (max 0 scoreDiag) scoreUp) scoreLeft
    if best ≤ 0 then Direction.STOP
    else _choose_direction best scoreDiag scoreUp scoreLeft

/-- The interior cells `(i, j)`, `1 ≤ i ≤ m`, `1 ≤ j ≤ n`, in the row-major
order of the double `for` loop in `align`. -/
def cellList (m n : Nat) : List (Nat × Nat) :=
  (List.range m).flatMap fun i => (List.range n).map fun j => (i + 1, j + 1)

/-- One step of the running maximum / argmax-list bookkeeping in the double
loop of `align` (`max_score`, `max_positions`). -/
def scanStep (f : Nat × Nat → Int) (st : Int × List (Nat × Nat)) (p : Nat × Nat) :
    Int × List (Nat × Nat) :=
  if st.1 < f p then (f p, [p])
  else if f p = st.1 ∧ 0 < f p then (st.1, st.2 ++ [p])
  else st

/-- The final `(max_score, max_positions)` pair of the double loop. -/
def maxScan (f : Nat × Nat → Int) (cells : List (Nat × Nat)) : Int × List (Nat × Nat) :=
  cells.foldl (scanStep f) (0, [])

/-- Fuel-indexed traceback walk; `fuel ≥ i + j` makes the result independent
of the fuel (`tracebackAuxF_irrel`). -/
def tracebackAuxF (ms mms gs : Int) (q c : List Int) (rmb : Bool) :
    Nat → Nat → Nat → Nat × Nat × Nat × List Nat
  | 0, i, j => (i, j, 0, [])
  | fuel + 1, i, j =>
    if 0 < i ∧ 0 < j ∧ dirAt ms mms gs q c i j ≠ Direction.STOP ∧
        0 < H ms mms gs q c i j then
      match dirAt ms mms gs q c i j with
      | Direction.DIAGONAL =>
        let r := tracebackAuxF ms mms gs q c rmb fuel (i - 1) (j - 1)
        if q.getD (i - 1) 0 = c.getD (j - 1) 0 then
          (r.1, r.2.1, r.2.2.1 + 1, if rmb then (j - 1) :: r.2.2.2 else r.2.2.2)
        else r
      | Direction.UP => tracebackAuxF ms mms gs q c rmb fuel (i - 1) j
      | Direction.LEFT => tracebackAuxF ms mms gs q c rmb fuel i (j - 1)
      | Direction.STOP => (i, j, 0, [])
    else (i, j, 0, [])

/-- The `while` loop of `_traceback_details`: starting from `(i, j)` it walks
the direction matrix and returns `(i_start, j_start, matches, positions)`
where `positions` lists the matched candidate indices in the order Python
appends them (decreasing).  Positions are only recorded when
`return_match_blocks` (`rmb`) is set, as in the source. -/
def tracebackAux (ms mms gs : Int) (q c : List Int) (rmb : Bool) (i j : Nat) :
    Nat × Nat × Nat × List Nat :=
  tracebackAuxF ms mms gs q c rmb (i + j) i j

/-- The run-grouping loop of `_traceback_details`: `groupRuns rest start prev`
is the block list produced from current run `[start..prev]` and remaining
ascending positions `rest`. -/
def groupRuns : List Nat → Nat → Nat → List (Nat × Nat)
  | [], start, prev => [(start, prev + 1)]
  | pos :: rest, start, prev =>
    if pos = prev + 1 then groupRuns rest start pos
    else (start, prev + 1) :: groupRuns rest pos pos

/-- Group an ascending list of candidate indices into maximal half-open runs
(the tail of `_traceback_details`). -/
def groupBlocks : List Nat → List (Nat × Nat)
  | [] => []
  | p :: rest => groupRuns rest p p

/-- `_traceback_details` from `aligner_py.py`:
returns `(i_start, j_start, matches, match_blocks)`. -/
def _traceback_details (ms mms gs : Int) (q c : List Int) (rmb : Bool) (i j : Nat) :
    Nat × Nat × Nat × List (Nat × Nat) :=
  let r := tracebackAux ms mms gs q c rmb i j
  (r.1, r.2.1, r.2.2.1, groupBlocks r.2.2.2.reverse)

/-- The sort key `(j_start, -span_len, i_start, j_end, i_end)` built in
`align` for the end point `(i, j)` with traceback start `(istart, jstart)`. -/
def tbKey (i j istart jstart : Nat) : Int × Int × Int × Int × Int :=
  ((jstart : Int), -((j : Int) - (jstart : Int)), (istart : Int), (j : Int), (i : Int))

/-- Strict lexicographic comparison of two candidate keys
(Python tuple `<` on the 5-tuples). -/
def keyLt (a b : Int × Int × Int × Int × Int) : Bool :=
  decide (a.1 < b.1) ||
    (decide (a.1 = b.1) &&
      (decide (a.2.1 < b.2.1) ||
        (decide (a.2.1 = b.2.1) &&
          (decide (a.2.2.1 < b.2.2.1) ||
            (decide (a.2.2.1 = b.2.2.1) &&
              (decide (a.2.2.2.1 < b.2.2.2.1) ||
                (decide (a.2.2.2.1 = b.2.2.2.1) &&
                  decide (a.2.2.2.2 < b.2.2.2.2))))))))

/-- The running best candidate of the selection loop in `align`
(`best_key`, `best_start`, `best_end`, `best_query_start`, `best_query_end`,
`best_matches`, `best_match_blocks`). -/
structure BestState where
  key : Option (Int × Int × Int × Int × Int)
  tokenStart : Nat
  tokenEnd : Nat
  queryStart : Nat
  queryEnd : Nat
  best_matches : Nat
  blocks : List (Nat × Nat)
deriving DecidableEq, Repr

/-- One iteration of the `for i_end, j_end in max_positions` loop of `align`. -/
def selectStep (ms mms gs : Int) (q c : List Int) (rmb : Bool)
    (st : BestState) (p : Nat × Nat) : BestState :=
  let r := _traceback_details ms mms gs q c rmb p.1 p.2
  let k := tbKey p.1 p.2 r.1 r.2.1
  match st.key with
  | none => ⟨some k, r.2.1, p.2, r.1, p.1, r.2.2.1, r.2.2.2⟩
  | some bk =>
    if keyLt k bk then ⟨some k, r.2.1, p.2, r.1, p.1, r.2.2.1, r.2.2.2⟩ else st

/-- `SmithWatermanAligner.align` over token lists.  The aligner's constructor
parameters `(match_score, mismatch_score, gap_score, return_match_blocks)`
appear as the arguments `ms mms gs rmb`. -/
def align (ms mms gs : Int) (rmb : Bool) (seq1 seq2 : List Int) : Alignment :=
  if seq1.isEmpty || seq2.isEmpty then zeroAlignment
  else
    let scan := maxScan (fun p => H ms mms gs seq1 seq2 p.1 p.2)
      (cellList seq1.length seq2.length)
    if scan.1 = 0 then zeroAlignment
    else
      let fin := scan.2.foldl (selectStep ms mms gs seq1 seq2 rmb)
        ⟨none, 0, 0, 0, 0, 0, []⟩
      ⟨scan.1, fin.tokenStart, fin.tokenEnd, fin.queryStart, fin.queryEnd,
        fin.best_matches, fin.blocks⟩

/-- Global maximum `H*` of the Smith–Waterman matrix over the interior cells
(0 when a sequence is empty). -/
def hstar (ms mms gs : Int) (q c : List Int) : Int :=
  ((cellList q.length c.length).map fun p => H ms mms gs q c p.1 p.2).foldl max 0

/-! ### Basic facts about the score matrix -/

theorem max4_nonneg (d u l : Int) : (0 : Int) ≤ max (max (max 0 d) u) l :=
  le_max_of_le_left (le_max_of_le_left (le_max_left _ _))

theorem ite_nonpos_max (M : Int) (h0 : 0 ≤ M) : (if M ≤ 0 then 0 else M) = M := by
  split
  · next h => exact (le_antisymm h h0).symm
  · rfl

theorem Hfuel_succ (ms mms gs : Int) (q c : List Int) (fuel i j : Nat) :
    Hfuel ms mms gs q c (fuel + 1) (i + 1) (j + 1) =
      (if max (max (max 0 (Hfuel ms mms gs q c fuel i j +
            (if q.getD i 0 = c.getD j 0 then ms else mms)))
          (Hfuel ms mms gs q c fuel i (j + 1) + gs))
          (Hfuel ms mms gs q c fuel (i + 1) j + gs) ≤ 0 then 0
      else
        max (max (max 0 (Hfuel ms mms gs q c fuel i j +
            (if q.getD i 0 = c.getD j 0 then ms else mms)))
          (Hfuel ms mms gs q c fuel i (j + 1) + gs))
          (Hfuel ms mms gs q c fuel (i + 1) j + gs)) := rfl

theorem H_succ (ms mms gs : Int) (q c : List Int) (i j : Nat) :
    H ms mms gs q c (i + 1) (j + 1) =
      max (max (max 0 (H ms mms gs q c i j +
          (if q.getD i 0 = c.getD j 0 then ms else mms)))
        (H ms mms gs q c i (j + 1) + gs)) (H ms mms gs q c (i + 1) j + gs) := by
  have e0 : H ms mms gs q c (i + 1) (j + 1) =
      Hfuel ms mms gs q c (i + 1 + j + 1) (i + 1) (j + 1) := rfl
  have e1 : Hfuel ms mms gs q c (i + 1 + j) i j = H ms mms gs q c i j :=
    Hfuel_irrel ms mms gs q c _ _ i j (by omega) (le_refl _)
  have e2 : Hfuel ms mms gs q c (i + 1 + j) i (j + 1) = H ms mms gs q c i (j + 1) :=
    Hfuel_irrel ms mms gs q c _ _ i (j + 1) (by omega) (le_refl _)
  have e3 : Hfuel ms mms gs q c (i + 1 + j) (i + 1) j = H ms mms gs q c (i + 1) j :=
    Hfuel_irrel ms mms gs q c _ _ (i + 1) j (by omega) (le_refl _)
  rw [e0, Hfuel_succ, e1, e2, e3]
  exact ite_nonpos_max _ (max4_nonneg _ _ _)

theorem H_nonneg (ms mms gs : Int) (q c : List Int) (i j : Nat) :
    0 ≤ H ms mms gs q c i j := by
  match i, j with
  | 0, _ => rw [H_zero_left]
  | _ + 1, 0 => rw [H_zero_right]
  | i + 1, j + 1 =>
    rw [H_succ]
    exact le_max_of_le_left (le_max_of_le_left (le_max_left _ _))

theorem dirAt_succ (ms mms gs : Int) (q c : List Int) (i j : Nat) :
    dirAt ms mms gs q c (i + 1) (j + 1) =
      (if max (max (max 0 (H ms mms gs q c i j +
            (if q.getD i 0 = c.getD j 0 then ms else mms)))
          (H ms mms gs q c i (j + 1) + gs)) (H ms mms gs q c (i + 1) j + gs) ≤ 0 then
        Direction.STOP
      else
        _choose_direction
          (max (max (max 0 (H ms mms gs q c i j +
              (if q.getD i 0 = c.getD j 0 then ms else mms)))
            (H ms mms gs q c i (j + 1) + gs)) (H ms mms gs q c (i + 1) j + gs))
          (H ms mms gs q c i j + (if q.getD i 0 = c.getD j 0 then ms else mms))
          (H ms mms gs q c i (j + 1) + gs) (H ms mms gs q c (i + 1) j + gs)) := rfl

theorem choose_direction_ne_stop (best d u l : Int) :
    _choose_direction best d u l ≠ Direction.STOP := by
  unfold _choose_direction
  split
  · exact fun h => Direction.noConfusion h
  · split
    · exact fun h => Direction.noConfusion h
    · exact fun h => Direction.noConfusion h

theorem stop_iff_aux (d u l : Int) :
    ((if max (max (max 0 d) u) l ≤ 0 then Direction.STOP
        else _choose_direction (max (max (max 0 d) u) l) d u l) = Direction.STOP ↔
      max (max (max 0 d) u) l = 0) := by
  by_cases hM : max (max (max 0 d) u) l ≤ 0
  · rw [if_pos hM]
    simp [le_antisymm hM (max4_nonneg d u l)]
  · rw [if_neg hM]
    constructor
    · intro hcd
      exact absurd hcd (choose_direction_ne_stop _ _ _ _)
    · intro h0
      exact absurd h0.le hM

theorem dirAt_stop_iff (ms mms gs : Int) (q c : List Int) (i j : Nat) :
    dirAt ms mms gs q c (i + 1) (j + 1) = Direction.STOP ↔
      H ms mms gs q c (i + 1) (j + 1) = 0 := by
  rw [dirAt_succ, H_succ]
  exact stop_iff_aux _ _ _

/-! ### Folding helpers for the running maximum -/

theorem le_foldl_max (l : List Int) (a : Int) : a ≤ l.foldl max a := by
  induction l generalizing a with
  | nil => exact le_refl a
  | cons x xs ih => exact le_trans (le_max_left a x) (ih (max a x))

theorem foldl_max_le (l : List Int) (a b : Int) (ha : a ≤ b) (h : ∀ x ∈ l, x ≤ b) :
    l.foldl max a ≤ b := by
  induction l generalizing a with
  | nil => exact ha
  | cons x xs ih =>
    refine ih (max a x) (max_le ha (h x (List.mem_cons_self x xs))) ?_
    exact fun y hy => h y (List.mem_cons_of_mem x hy)

theorem mem_le_foldl_max (l : List Int) (a x : Int) (hx : x ∈ l) : x ≤ l.foldl max a := by
  induction l generalizing a with
  | nil => exact absurd hx (List.not_mem_nil x)
  | cons y ys ih =>
    rcases List.mem_cons.mp hx with h | h
    · subst h
      exact le_trans (le_max_right a x) (le_foldl_max ys (max a x))
    · exact ih (max a y) h

theorem foldl_max_map_mono (l : List (Nat × Nat)) (f g : Nat × Nat → Int) (a b : Int)
    (hab : a ≤ b) (h : ∀ p ∈ l, f p ≤ g p) :
    (l.map f).foldl max a ≤ (l.map g).foldl max b := by
  induction l generalizing a b with
  | nil => exact hab
  | cons x xs ih =>
    rw [List.map_cons, List.map_cons, List.foldl_cons, List.foldl_cons]
    exact ih (max a (f x)) (max b (g x))
      (max_le_max hab (h x (List.mem_cons_self x xs)))
      (fun p hp => h p (List.mem_cons_of_mem x hp))

theorem scanStep_fst (f : Nat × Nat → Int) (st : Int × List (Nat × Nat)) (p : Nat × Nat) :
    (scanStep f st p).1 = max st.1 (f p) := by
  unfold scanStep
  split
  · next h => exact (max_eq_right h.le).symm
  · next h =>
    split
    · exact (max_eq_left (not_lt.mp h)).symm
    · exact (max_eq_left (not_lt.mp h)).symm

theorem foldl_scanStep_fst (f : Nat × Nat → Int) (cells : List (Nat × Nat)) :
    ∀ st : Int × List (Nat × Nat),
      (cells.foldl (scanStep f) st).1 = (cells.map f).foldl max st.1 := by
  induction cells with
  | nil => intro st; rfl
  | cons p ps ih =>
    intro st
    rw [List.foldl_cons, List.map_cons, List.foldl_cons, ih, scanStep_fst]

theorem maxScan_fst (ms mms gs : Int) (q c : List Int) :
    (maxScan (fun p => H ms mms gs q c p.1 p.2) (cellList q.length c.length)).1 =
      hstar ms mms gs q c := by
  unfold maxScan hstar
  exact foldl_scanStep_fst _ _ _

theorem hstar_nonneg (ms mms gs : Int) (q c : List Int) : 0 ≤ hstar ms mms gs q c :=
  le_foldl_max _ 0

theorem hstar_nil_left (ms mms gs : Int) (c : List Int) : hstar ms mms gs [] c = 0 := by
  simp [hstar, cellList]

theorem hstar_nil_right (ms mms gs : Int) (q : List Int) : hstar ms mms gs q [] = 0 := by
  have hf : ((List.range q.length).flatMap fun _ => ([] : List (Nat × Nat))) = [] := by
    induction List.range q.length with
    | nil => rfl
    | cons x xs ih => rw [List.flatMap_cons, ih]; rfl
  simp [hstar, cellList, hf]

/-- **C1.** `SmithWatermanAligner.align` returns an `Alignment` whose score is
the global maximum `H*` of the Smith–Waterman matrix given by the recurrence
`H[0,*] = H[*,0] = 0`,
`H[i,j] = max(0, H[i-1,j-1] + match/mismatch, H[i-1,j] + gap, H[i,j-1] + gap)`;
and on degenerate inputs (an empty sequence, or `H* = 0`) it returns the zero
alignment with every index field 0 and no match blocks. -/
theorem align_score_eq_hstar (ms mms gs : Int) (rmb : Bool) (q c : List Int) :
    (align ms mms gs rmb q c).score = hstar ms mms gs q c ∧
      ((q = [] ∨ c = [] ∨ hstar ms mms gs q c = 0) →
        align ms mms gs rmb q c = zeroAlignment) := by
  by_cases hq : q = []
  · subst hq
    constructor
    · simp [align, zeroAlignment, hstar_nil_left]
    · intro _; simp [align, zeroAlignment]
  · by_cases hc : c = []
    · subst hc
      constructor
      · simp [align, zeroAlignment, hstar_nil_right, hq]
      · intro _; simp [align, zeroAlignment]
    · have hne : (q.isEmpty || c.isEmpty) = false := by
        simp [List.isEmpty_iff, hq, hc]
      constructor
      · rw [align, hne]
        simp only [Bool.false_eq_true, if_false]
        rw [maxScan_fst]
        split
        · next h => rw [zeroAlignment, ← h]
        · rfl
      · intro hdeg
        rcases hdeg with h | h | h
        · exact absurd h hq
        · exact absurd h hc
        · rw [align, hne]
          simp only [Bool.false_eq_true, if_false]
          rw [maxScan_fst, h]
          simp

/-- Closed witness for `align_score_eq_hstar`. -/
theorem align_score_eq_hstar_witness :
    (align 2 (-1) (-1) false [1, 2, 3] [0, 1, 2, 3, 4]).score =
        hstar 2 (-1) (-1) [1, 2, 3] [0, 1, 2, 3, 4] ∧
      align 2 (-1) (-1) false ([] : List Int) [5] = zeroAlignment :=
  ⟨(align_score_eq_hstar 2 (-1) (-1) false [1, 2, 3] [0, 1, 2, 3, 4]).1,
    (align_score_eq_hstar 2 (-1) (-1) false [] [5]).2 (Or.inl rfl)⟩

/-! ### Monotonicity of the matrix in `match_score` -/

theorem H_mono_ms (mms gs : Int) (q c : List Int) (ms1 ms2 : Int) (hms : ms1 ≤ ms2) :
    ∀ n i j, i + j ≤ n → H ms1 mms gs q c i j ≤ H ms2 mms gs q c i j := by
  intro n
  induction n with
  | zero =>
    intro i j hij
    have hi : i = 0 := by omega
    subst hi
    rw [H_zero_left, H_zero_left]
  | succ n ih =>
    intro i j hij
    match i, j with
    | 0, _ => rw [H_zero_left, H_zero_left]
    | i + 1, 0 => rw [H_zero_right, H_zero_right]
    | i + 1, j + 1 =>
      rw [H_succ, H_succ]
      have h1 := ih i j (by omega)
      have h2 := ih i (j + 1) (by omega)
      have h3 := ih (i + 1) j (by omega)
      have hmat : (if q.getD i 0 = c.getD j 0 then ms1 else mms) ≤
          (if q.getD i 0 = c.getD j 0 then ms2 else mms) := by
        split
        · exact hms
        · exact le_refl mms
      exact max_le_max (max_le_max (max_le_max (le_refl 0) (add_le_add h1 hmat))
        (add_le_add_right h2 gs)) (add_le_add_right h3 gs)

/-- **C5.** With `mismatch_score` and `gap_score` fixed, the score returned by
`SmithWatermanAligner.align` is monotone in `match_score`: `m1 ≤ m2` implies
the score at `m1` is at most the score at `m2`. -/
theorem align_score_mono_match (ms1 ms2 mms gs : Int) (rmb : Bool) (q c : List Int)
    (hms : ms1 ≤ ms2) :
    (align ms1 mms gs rmb q c).score ≤ (align ms2 mms gs rmb q c).score := by
  rw [(align_score_eq_hstar ms1 mms gs rmb q c).1,
    (align_score_eq_hstar ms2 mms gs rmb q c).1]
  unfold hstar
  exact foldl_max_map_mono _ _ _ 0 0 (le_refl 0)
    (fun p _ => H_mono_ms mms gs q c ms1 ms2 hms (p.1 + p.2) p.1 p.2 (le_refl _))

/-- Closed witness for `align_score_mono_match`. -/
theorem align_score_mono_match_witness :
    (align 1 (-1) (-1) false [1, 2] [1, 2]).score ≤
      (align 2 (-1) (-1) false [1, 2] [1, 2]).score :=
  align_score_mono_match 1 2 (-1) (-1) false [1, 2] [1, 2] (by decide)

/-! ### The `max_positions` bookkeeping -/

theorem cellList_mem (m n : Nat) (p : Nat × Nat) :
    p ∈ cellList m n ↔ 1 ≤ p.1 ∧ p.1 ≤ m ∧ 1 ≤ p.2 ∧ p.2 ≤ n := by
  constructor
  · intro hp
    simp only [cellList, List.mem_flatMap, List.mem_map, List.mem_range] at hp
    obtain ⟨i, hi, j, hj, hij⟩ := hp
    subst hij
    omega
  · intro ⟨h1, h2, h3, h4⟩
    obtain ⟨p1, p2⟩ := p
    simp only [cellList, List.mem_flatMap, List.mem_map, List.mem_range, Prod.mk.injEq]
    exact ⟨p1 - 1, by omega, p2 - 1, by omega, by omega, by omega⟩

theorem foldl_scanStep_props (f : Nat × Nat → Int) (cells : List (Nat × Nat)) :
    ∀ st : Int × List (Nat × Nat),
      (∀ p ∈ st.2, f p = st.1) →
      (0 < st.1 → st.2 ≠ []) →
      (∀ p ∈ (cells.foldl (scanStep f) st).2, f p = (cells.foldl (scanStep f) st).1) ∧
      (0 < (cells.foldl (scanStep f) st).1 → (cells.foldl (scanStep f) st).2 ≠ []) ∧
      (∀ p ∈ cells, f p = (cells.foldl (scanStep f) st).1 →
        0 < (cells.foldl (scanStep f) st).1 → p ∈ (cells.foldl (scanStep f) st).2) ∧
      (∀ p ∈ (cells.foldl (scanStep f) st).2, p ∈ st.2 ∨ p ∈ cells) ∧
      (∀ p ∈ st.2, f p = (cells.foldl (scanStep f) st).1 →
        0 < (cells.foldl (scanStep f) st).1 → p ∈ (cells.foldl (scanStep f) st).2) := by
  induction cells with
  | nil =>
    intro st h1 h2
    refine ⟨h1, h2, ?_, ?_, ?_⟩
    · intro p hp; exact absurd hp (List.not_mem_nil p)
    · intro p hp; exact Or.inl hp
    · intro p hp _ _; exact hp
  | cons x xs ih =>
    intro st h1 h2
    rw [List.foldl_cons]
    have hmax : ((x :: xs).foldl (scanStep f) st).1 = ((x :: xs).map f).foldl max st.1 :=
      foldl_scanStep_fst f (x :: xs) st
    have hge : (scanStep f st x).1 ≤ ((xs.foldl (scanStep f) (scanStep f st x))).1 := by
      rw [foldl_scanStep_fst]
      exact le_foldl_max _ _
    have hstep : scanStep f st x =
        if st.1 < f x then (f x, [x])
        else if f x = st.1 ∧ 0 < f x then (st.1, st.2 ++ [x]) else st := rfl
    have h1' : ∀ p ∈ (scanStep f st x).2, f p = (scanStep f st x).1 := by
      intro p hp
      rw [hstep] at hp ⊢
      by_cases hA : st.1 < f x
      · rw [if_pos hA] at hp ⊢
        simp only [List.mem_singleton] at hp
        subst hp
        rfl
      · rw [if_neg hA] at hp ⊢
        by_cases hB : f x = st.1 ∧ 0 < f x
        · rw [if_pos hB] at hp ⊢
          simp only [List.mem_append, List.mem_singleton] at hp
          rcases hp with hp | hp
          · exact h1 p hp
          · subst hp; exact hB.1
        · rw [if_neg hB] at hp ⊢
          exact h1 p hp
    have h2' : 0 < (scanStep f st x).1 → (scanStep f st x).2 ≠ [] := by
      intro hpos
      rw [hstep] at hpos ⊢
      by_cases hA : st.1 < f x
      · rw [if_pos hA]; simp
      · rw [if_neg hA] at hpos ⊢
        by_cases hB : f x = st.1 ∧ 0 < f x
        · rw [if_pos hB]; simp
        · rw [if_neg hB] at hpos ⊢
          exact h2 hpos
    obtain ⟨i1, i2, i3, i4, i5⟩ := ih (scanStep f st x) h1' h2'
    refine ⟨i1, i2, ?_, ?_, ?_⟩
    · intro p hp hfp hpos
      rcases List.mem_cons.mp hp with hp | hp
      · refine i5 p ?_ hfp hpos
        rw [hstep, hp]
        by_cases hA : st.1 < f x
        · rw [if_pos hA]; simp
        · by_cases hB : f x = st.1 ∧ 0 < f x
          · rw [if_neg hA, if_pos hB]; simp
          · exfalso
            have hle : (scanStep f st x).1 ≤
                (xs.foldl (scanStep f) (scanStep f st x)).1 := hge
            have hst2 : (scanStep f st x).1 = st.1 := by
              rw [hstep, if_neg hA, if_neg hB]
            rw [hst2] at hle
            have hfle : f x ≤ st.1 := not_lt.mp hA
            rw [hp] at hfp
            rcases lt_or_eq_of_le hfle with h | h
            · omega
            · have hnp : ¬(0 < f x) := fun hcc => hB ⟨h, hcc⟩
              rw [hfp] at hnp
              omega
      · exact i3 p hp hfp hpos
    · intro p hp
      rcases i4 p hp with h | h
      · rw [hstep] at h
        by_cases hA : st.1 < f x
        · rw [if_pos hA] at h
          simp only [List.mem_singleton] at h
          rw [h]
          exact Or.inr (List.mem_cons_self x xs)
        · rw [if_neg hA] at h
          by_cases hB : f x = st.1 ∧ 0 < f x
          · rw [if_pos hB] at h
            simp only [List.mem_append, List.mem_singleton] at h
            rcases h with h | h
            · exact Or.inl h
            · rw [h]
              exact Or.inr (List.mem_cons_self x xs)
          · rw [if_neg hB] at h
            exact Or.inl h
      · exact Or.inr (List.mem_cons_of_mem x h)
    · intro p hp hfp hpos
      refine i5 p ?_ hfp hpos
      rw [hstep]
      by_cases hA : st.1 < f x
      · exfalso
        have hf : f p = st.1 := h1 p hp
        have hle : (scanStep f st x).1 ≤ _ := hge
        have hst : (scanStep f st x).1 = f x := by
          rw [hstep, if_pos hA]
        rw [hst] at hle
        rw [hf] at hfp
        omega
      · rw [if_neg hA]
        by_cases hB : f x = st.1 ∧ 0 < f x
        · rw [if_pos hB]
          exact List.mem_append_left _ hp
        · rw [if_neg hB]
          exact hp

/-! ### The candidate key order -/

theorem keyLt_irrefl (a : Int × Int × Int × Int × Int) : keyLt a a = false := by
  obtain ⟨a1, a2, a3, a4, a5⟩ := a
  simp only [keyLt, Bool.or_eq_false_iff, Bool.and_eq_false_iff,
    decide_eq_false_iff_not, decide_eq_true_eq]
  omega

theorem keyLt_false_trans (a b c : Int × Int × Int × Int × Int)
    (h1 : keyLt a b = false) (h2 : keyLt b c = false) : keyLt a c = false := by
  obtain ⟨a1, a2, a3, a4, a5⟩ := a
  obtain ⟨b1, b2, b3, b4, b5⟩ := b
  obtain ⟨c1, c2, c3, c4, c5⟩ := c
  simp only [keyLt, Bool.or_eq_false_iff, Bool.and_eq_false_iff,
    decide_eq_false_iff_not, decide_eq_true_eq] at h1 h2 ⊢
  omega

theorem keyLt_false_of_false_of_true (a b c : Int × Int × Int × Int × Int)
    (h1 : keyLt a b = false) (h2 : keyLt a c = true) : keyLt c b = false := by
  obtain ⟨a1, a2, a3, a4, a5⟩ := a
  obtain ⟨b1, b2, b3, b4, b5⟩ := b
  obtain ⟨c1, c2, c3, c4, c5⟩ := c
  simp only [keyLt, Bool.or_eq_false_iff, Bool.and_eq_false_iff,
    decide_eq_false_iff_not, decide_eq_true_eq] at h1 ⊢
  simp only [keyLt, Bool.or_eq_true, Bool.and_eq_true, decide_eq_true_eq] at h2
  omega

/-! ### The selection loop over `max_positions` -/

/-- The sort key the selection loop computes for the end point `p`. -/
def endpointKey (ms mms gs : Int) (q c : List Int) (rmb : Bool) (p : Nat × Nat) :
    Int × Int × Int × Int × Int :=
  let r := _traceback_details ms mms gs q c rmb p.1 p.2
  tbKey p.1 p.2 r.1 r.2.1

/-- The `BestState` the selection loop stores when the end point `p` wins. -/
def endpointState (ms mms gs : Int) (q c : List Int) (rmb : Bool) (p : Nat × Nat) :
    BestState :=
  let r := _traceback_details ms mms gs q c rmb p.1 p.2
  ⟨some (tbKey p.1 p.2 r.1 r.2.1), r.2.1, p.2, r.1, p.1, r.2.2.1, r.2.2.2⟩

/-- The `Alignment` built from the end point `p` and overall score `sc`. -/
def endpointAlignment (ms mms gs : Int) (q c : List Int) (rmb : Bool) (sc : Int)
    (p : Nat × Nat) : Alignment :=
  let r := _traceback_details ms mms gs q c rmb p.1 p.2
  ⟨sc, r.2.1, p.2, r.1, p.1, r.2.2.1, r.2.2.2⟩

theorem selectStep_none (ms mms gs : Int) (q c : List Int) (rmb : Bool)
    (st : BestState) (p : Nat × Nat) (h : st.key = none) :
    selectStep ms mms gs q c rmb st p = endpointState ms mms gs q c rmb p := by
  unfold selectStep endpointState
  rw [h]

theorem selectStep_endpoint (ms mms gs : Int) (q c : List Int) (rmb : Bool)
    (p0 p : Nat × Nat) :
    selectStep ms mms gs q c rmb (endpointState ms mms gs q c rmb p0) p =
      (if keyLt (endpointKey ms mms gs q c rmb p) (endpointKey ms mms gs q c rmb p0)
        then endpointState ms mms gs q c rmb p
        else endpointState ms mms gs q c rmb p0) := rfl

theorem selectFold_min (ms mms gs : Int) (q c : List Int) (rmb : Bool)
    (ps : List (Nat × Nat)) :
    ∀ p0 : Nat × Nat, ∃ p1 : Nat × Nat,
      ps.foldl (selectStep ms mms gs q c rmb)
          (endpointState ms mms gs q c rmb p0) =
        endpointState ms mms gs q c rmb p1 ∧
      (p1 = p0 ∨ p1 ∈ ps) ∧
      (∀ p', (p' = p0 ∨ p' ∈ ps) →
        keyLt (endpointKey ms mms gs q c rmb p')
          (endpointKey ms mms gs q c rmb p1) = false) := by
  induction ps with
  | nil =>
    intro p0
    refine ⟨p0, rfl, Or.inl rfl, ?_⟩
    intro p' hp'
    rcases hp' with h | h
    · rw [h]
      exact keyLt_irrefl _
    · exact absurd h (List.not_mem_nil p')
  | cons x xs ih =>
    intro p0
    rw [List.foldl_cons, selectStep_endpoint]
    by_cases hlt : keyLt (endpointKey ms mms gs q c rmb x)
        (endpointKey ms mms gs q c rmb p0) = true
    · rw [if_pos hlt]
      obtain ⟨p1, heq, hmem, hmin⟩ := ih x
      refine ⟨p1, heq, ?_, ?_⟩
      · rcases hmem with h | h
        · exact Or.inr (h ▸ List.mem_cons_self x xs)
        · exact Or.inr (List.mem_cons_of_mem x h)
      · intro p' hp'
        rcases hp' with h | h
        · -- p' = p0 : the displaced initial candidate is not below the result
          rw [h]
          exact keyLt_false_of_false_of_true _ _ _ (hmin x (Or.inl rfl)) hlt
        · rcases List.mem_cons.mp h with h | h
          · exact hmin p' (Or.inl h)
          · exact hmin p' (Or.inr h)
    · rw [if_neg (by simpa using hlt)]
      obtain ⟨p1, heq, hmem, hmin⟩ := ih p0
      refine ⟨p1, heq, ?_, ?_⟩
      · rcases hmem with h | h
        · exact Or.inl h
        · exact Or.inr (List.mem_cons_of_mem x h)
      · intro p' hp'
        rcases hp' with h | h
        · exact hmin p' (Or.inl h)
        · rcases List.mem_cons.mp h with h | h
          · rw [h]
            exact keyLt_false_trans _ _ _ (by simpa using hlt) (hmin p0 (Or.inl rfl))
          · exact hmin p' (Or.inr h)

/-! ### Traceback analysis -/

theorem eq_diag_of_choose (b d u l : Int)
    (h : _choose_direction b d u l = Direction.DIAGONAL) : b = d := by
  unfold _choose_direction at h
  by_cases h1 : b = d
  · exact h1
  · rw [if_neg h1] at h
    by_cases h2 : b = u
    · rw [if_pos h2] at h
      exact absurd h (fun hh => Direction.noConfusion hh)
    · rw [if_neg h2] at h
      exact absurd h (fun hh => Direction.noConfusion hh)

theorem eq_up_of_choose (b d u l : Int)
    (h : _choose_direction b d u l = Direction.UP) : b ≠ d ∧ b = u := by
  unfold _choose_direction at h
  by_cases h1 : b = d
  · rw [if_pos h1] at h
    exact absurd h (fun hh => Direction.noConfusion hh)
  · rw [if_neg h1] at h
    by_cases h2 : b = u
    · exact ⟨h1, h2⟩
    · rw [if_neg h2] at h
      exact absurd h (fun hh => Direction.noConfusion hh)

theorem eq_left_of_choose (b d u l : Int)
    (h : _choose_direction b d u l = Direction.LEFT) : b ≠ d ∧ b ≠ u := by
  unfold _choose_direction at h
  by_cases h1 : b = d
  · rw [if_pos h1] at h
    exact absurd h (fun hh => Direction.noConfusion hh)
  · rw [if_neg h1] at h
    by_cases h2 : b = u
    · rw [if_pos h2] at h
      exact absurd h (fun hh => Direction.noConfusion hh)
    · exact ⟨h1, h2⟩

theorem dirAt_up_eq (ms mms gs : Int) (q c : List Int) (i j : Nat)
    (h : dirAt ms mms gs q c (i + 1) (j + 1) = Direction.UP) :
    H ms mms gs q c (i + 1) (j + 1) = H ms mms gs q c i (j + 1) + gs ∧
      0 < H ms mms gs q c (i + 1) (j + 1) := by
  rw [dirAt_succ] at h
  rw [H_succ]
  by_cases hM : max (max (max 0 (H ms mms gs q c i j +
      (if q.getD i 0 = c.getD j 0 then ms else mms)))
      (H ms mms gs q c i (j + 1) + gs)) (H ms mms gs q c (i + 1) j + gs) ≤ 0
  · rw [if_pos hM] at h
    exact absurd h (fun hh => Direction.noConfusion hh)
  · rw [if_neg hM] at h
    exact ⟨(eq_up_of_choose _ _ _ _ h).2, not_le.mp hM⟩

theorem dirAt_left_eq (ms mms gs : Int) (q c : List Int) (i j : Nat)
    (h : dirAt ms mms gs q c (i + 1) (j + 1) = Direction.LEFT) :
    H ms mms gs q c (i + 1) (j + 1) ≤ H ms mms gs q c (i + 1) j + gs ∧
      0 < H ms mms gs q c (i + 1) (j + 1) := by
  rw [dirAt_succ] at h
  rw [H_succ]
  by_cases hM : max (max (max 0 (H ms mms gs q c i j +
      (if q.getD i 0 = c.getD j 0 then ms else mms)))
      (H ms mms gs q c i (j + 1) + gs)) (H ms mms gs q c (i + 1) j + gs) ≤ 0
  · rw [if_pos hM] at h
    exact absurd h (fun hh => Direction.noConfusion hh)
  · rw [if_neg hM] at h
    obtain ⟨hnd, hnu⟩ := eq_left_of_choose _ _ _ _ h
    have hM0 : (0 : Int) < _ := not_le.mp hM
    refine ⟨?_, hM0⟩
    rcases max_choice (max (max 0 (H ms mms gs q c i j +
        (if q.getD i 0 = c.getD j 0 then ms else mms)))
        (H ms mms gs q c i (j + 1) + gs)) (H ms mms gs q c (i + 1) j + gs) with hm | hm
    · rw [hm]
      rcases max_choice (max 0 (H ms mms gs q c i j +
          (if q.getD i 0 = c.getD j 0 then ms else mms)))
          (H ms mms gs q c i (j + 1) + gs) with hm2 | hm2
      · rw [hm2]
        rcases max_choice 0 (H ms mms gs q c i j +
            (if q.getD i 0 = c.getD j 0 then ms else mms)) with hm3 | hm3
        · rw [hm, hm2, hm3] at hM0
          exact absurd hM0 (lt_irrefl 0)
        · rw [hm, hm2] at hnd
          exact absurd hm3 hnd
      · rw [hm] at hnu
        exact absurd hm2 hnu
    · rw [hm]

theorem tracebackAuxF_irrel (ms mms gs : Int) (q c : List Int) (rmb : Bool) :
    ∀ fuel1 fuel2 i j, i + j ≤ fuel1 → i + j ≤ fuel2 →
      tracebackAuxF ms mms gs q c rmb fuel1 i j =
        tracebackAuxF ms mms gs q c rmb fuel2 i j := by
  intro fuel1
  induction fuel1 with
  | zero =>
    intro fuel2 i j h1 h2
    have hi : i = 0 := by omega
    have hj : j = 0 := by omega
    subst hi hj
    cases fuel2 with
    | zero => rfl
    | succ f2 =>
      simp only [tracebackAuxF]
      rw [if_neg (by omega)]
  | succ f1 ih =>
    intro fuel2 i j h1 h2
    cases fuel2 with
    | zero =>
      have hi : i = 0 := by omega
      have hj : j = 0 := by omega
      subst hi hj
      simp only [tracebackAuxF]
      rw [if_neg (by omega)]
    | succ f2 =>
      simp only [tracebackAuxF]
      by_cases hcond : 0 < i ∧ 0 < j ∧ dirAt ms mms gs q c i j ≠ Direction.STOP ∧
          0 < H ms mms gs q c i j
      · rw [if_pos hcond, if_pos hcond]
        obtain ⟨hi, hj, _, _⟩ := hcond
        rcases hdd : dirAt ms mms gs q c i j with _ | _ | _ | _
        · rfl
        · rw [ih f2 (i - 1) (j - 1) (by omega) (by omega)]
        · rw [ih f2 (i - 1) j (by omega) (by omega)]
        · rw [ih f2 i (j - 1) (by omega) (by omega)]
      · rw [if_neg hcond, if_neg hcond]

theorem tracebackAux_neg (ms mms gs : Int) (q c : List Int) (rmb : Bool) (i j : Nat)
    (h : ¬(0 < i ∧ 0 < j ∧ dirAt ms mms gs q c i j ≠ Direction.STOP ∧
      0 < H ms mms gs q c i j)) :
    tracebackAux ms mms gs q c rmb i j = (i, j, 0, []) := by
  unfold tracebackAux
  obtain ⟨k, hk⟩ : ∃ k, i + j = k := ⟨i + j, rfl⟩
  rw [hk]
  cases k with
  | zero => rfl
  | succ k =>
    rw [tracebackAuxF]
    rw [if_neg h]

theorem tracebackAux_diag (ms mms gs : Int) (q c : List Int) (rmb : Bool) (i j : Nat)
    (hi : 0 < i) (hj : 0 < j) (hH : 0 < H ms mms gs q c i j)
    (hd : dirAt ms mms gs q c i j = Direction.DIAGONAL) :
    tracebackAux ms mms gs q c rmb i j =
      (if q.getD (i - 1) 0 = c.getD (j - 1) 0 then
        ((tracebackAux ms mms gs q c rmb (i - 1) (j - 1)).1,
          (tracebackAux ms mms gs q c rmb (i - 1) (j - 1)).2.1,
          (tracebackAux ms mms gs q c rmb (i - 1) (j - 1)).2.2.1 + 1,
          if rmb then (j - 1) :: (tracebackAux ms mms gs q c rmb (i - 1) (j - 1)).2.2.2
          else (tracebackAux ms mms gs q c rmb (i - 1) (j - 1)).2.2.2)
      else tracebackAux ms mms gs q c rmb (i - 1) (j - 1)) := by
  unfold tracebackAux
  obtain ⟨k, hk⟩ : ∃ k, i + j = k + 1 := ⟨i + j - 1, by omega⟩
  rw [hk]
  rw [tracebackAuxF]
  rw [if_pos ⟨hi, hj, by rw [hd]; exact fun hh => Direction.noConfusion hh, hH⟩]
  rw [hd]
  rw [tracebackAuxF_irrel ms mms gs q c rmb k ((i - 1) + (j - 1)) (i - 1) (j - 1)
    (by omega) (le_refl _)]

theorem tracebackAux_up (ms mms gs : Int) (q c : List Int) (rmb : Bool) (i j : Nat)
    (hi : 0 < i) (hj : 0 < j) (hH : 0 < H ms mms gs q c i j)
    (hd : dirAt ms mms gs q c i j = Direction.UP) :
    tracebackAux ms mms gs q c rmb i j = tracebackAux ms mms gs q c rmb (i - 1) j := by
  unfold tracebackAux
  obtain ⟨k, hk⟩ : ∃ k, i + j = k + 1 := ⟨i + j - 1, by omega⟩
  rw [hk]
  rw [tracebackAuxF]
  rw [if_pos ⟨hi, hj, by rw [hd]; exact fun hh => Direction.noConfusion hh, hH⟩]
  rw [hd]
  rw [tracebackAuxF_irrel ms mms gs q c rmb k ((i - 1) + j) (i - 1) j
    (by omega) (le_refl _)]

theorem tracebackAux_left (ms mms gs : Int) (q c : List Int) (rmb : Bool) (i j : Nat)
    (hi : 0 < i) (hj : 0 < j) (hH : 0 < H ms mms gs q c i j)
    (hd : dirAt ms mms gs q c i j = Direction.LEFT) :
    tracebackAux ms mms gs q c rmb i j = tracebackAux ms mms gs q c rmb i (j - 1) := by
  unfold tracebackAux
  obtain ⟨k, hk⟩ : ∃ k, i + j = k + 1 := ⟨i + j - 1, by omega⟩
  rw [hk]
  rw [tracebackAuxF]
  rw [if_pos ⟨hi, hj, by rw [hd]; exact fun hh => Direction.noConfusion hh, hH⟩]
  rw [hd]
  rw [tracebackAuxF_irrel ms mms gs q c rmb k (i + (j - 1)) i (j - 1)
    (by omega) (le_refl _)]

theorem tracebackAux_props (ms mms gs : Int) (q c : List Int) (rmb : Bool) :
    ∀ n i j, i + j ≤ n →
      (tracebackAux ms mms gs q c rmb i j).1 ≤ i ∧
      (tracebackAux ms mms gs q c rmb i j).2.1 ≤ j ∧
      (∀ x ∈ (tracebackAux ms mms gs q c rmb i j).2.2.2,
        (tracebackAux ms mms gs q c rmb i j).2.1 ≤ x ∧ x < j) ∧
      List.Pairwise (fun a b => b < a) (tracebackAux ms mms gs q c rmb i j).2.2.2 ∧
      (rmb = true → (tracebackAux ms mms gs q c rmb i j).2.2.2.length =
        (tracebackAux ms mms gs q c rmb i j).2.2.1) ∧
      (rmb = false → (tracebackAux ms mms gs q c rmb i j).2.2.2 = []) := by
  intro n
  induction n with
  | zero =>
    intro i j hij
    have hi : i = 0 := by omega
    rw [tracebackAux_neg ms mms gs q c rmb i j (by omega)]
    simp
  | succ n ih =>
    intro i j hij
    by_cases hcond : 0 < i ∧ 0 < j ∧ dirAt ms mms gs q c i j ≠ Direction.STOP ∧
        0 < H ms mms gs q c i j
    · obtain ⟨hi, hj, hdir, hH⟩ := hcond
      rcases hdd : dirAt ms mms gs q c i j with _ | _ | _ | _
      · exact absurd hdd hdir
      · -- DIAGONAL
        rw [tracebackAux_diag ms mms gs q c rmb i j hi hj hH hdd]
        obtain ⟨t1, t2, t3, t4, t5, t6⟩ := ih (i - 1) (j - 1) (by omega)
        by_cases htok : q.getD (i - 1) 0 = c.getD (j - 1) 0
        · rw [if_pos htok]
          rcases rmb with _ | _
        -- rmb = false
          · rw [if_neg (by simp)]
            refine ⟨by simpa using Nat.le_trans t1 (by omega),
              by simpa using Nat.le_trans t2 (by omega), ?_, ?_, ?_, ?_⟩
            · intro x hx
              simp only at hx
              obtain ⟨hx1, hx2⟩ := t3 x hx
              exact ⟨hx1, by omega⟩
            · simpa using t4
            · intro hr
              exact absurd hr (by simp)
            · intro _
              simpa using t6 rfl
          -- rmb = true
          · rw [if_pos rfl]
            refine ⟨by simpa using Nat.le_trans t1 (by omega),
              by simpa using Nat.le_trans t2 (by omega), ?_, ?_, ?_, ?_⟩
            · intro x hx
              simp only [List.mem_cons] at hx
              rcases hx with hx | hx
              · subst hx
                exact ⟨by simpa using Nat.le_trans t2 (by omega), by omega⟩
              · obtain ⟨hx1, hx2⟩ := t3 x hx
                exact ⟨hx1, by omega⟩
            · simp only
              refine List.Pairwise.cons ?_ t4
              intro x hx
              exact (t3 x hx).2
            · intro _
              simpa using t5 rfl
            · intro hr
              exact absurd hr (by simp)
        · rw [if_neg htok]
          refine ⟨Nat.le_trans t1 (by omega), Nat.le_trans t2 (by omega), ?_, t4, t5, t6⟩
          intro x hx
          obtain ⟨hx1, hx2⟩ := t3 x hx
          exact ⟨hx1, by omega⟩
      · -- UP
        rw [tracebackAux_up ms mms gs q c rmb i j hi hj hH hdd]
        obtain ⟨t1, t2, t3, t4, t5, t6⟩ := ih (i - 1) j (by omega)
        exact ⟨Nat.le_trans t1 (by omega), t2, t3, t4, t5, t6⟩
      · -- LEFT
        rw [tracebackAux_left ms mms gs q c rmb i j hi hj hH hdd]
        obtain ⟨t1, t2, t3, t4, t5, t6⟩ := ih i (j - 1) (by omega)
        refine ⟨t1, Nat.le_trans t2 (by omega), ?_, t4, t5, t6⟩
        intro x hx
        obtain ⟨hx1, hx2⟩ := t3 x hx
        exact ⟨hx1, by omega⟩
    · rw [tracebackAux_neg ms mms gs q c rmb i j hcond]
      simp

theorem tracebackAux_strict (ms mms gs : Int) (q c : List Int) (rmb : Bool)
    (hgs : gs ≤ 0) :
    ∀ n i j, i + j ≤ n → 0 < i → 0 < j →
      dirAt ms mms gs q c i j ≠ Direction.STOP → 0 < H ms mms gs q c i j →
      (tracebackAux ms mms gs q c rmb i j).1 < i ∧
        (tracebackAux ms mms gs q c rmb i j).2.1 < j := by
  intro n
  induction n with
  | zero =>
    intro i j hij hi
    omega
  | succ n ih =>
    intro i j hij hi hj hdir hH
    rcases hdd : dirAt ms mms gs q c i j with _ | _ | _ | _
    · exact absurd hdd hdir
    · -- DIAGONAL: one step strictly decreases both indices
      rw [tracebackAux_diag ms mms gs q c rmb i j hi hj hH hdd]
      obtain ⟨t1, t2, t3, t4, t5, t6⟩ := tracebackAux_props ms mms gs q c rmb
        (i - 1 + (j - 1)) (i - 1) (j - 1) (le_refl _)
      by_cases htok : q.getD (i - 1) 0 = c.getD (j - 1) 0
      · rw [if_pos htok]
        constructor
        · simpa using Nat.lt_of_le_of_lt t1 (by omega)
        · simpa using Nat.lt_of_le_of_lt t2 (by omega)
      · rw [if_neg htok]
        exact ⟨Nat.lt_of_le_of_lt t1 (by omega), Nat.lt_of_le_of_lt t2 (by omega)⟩
    · -- UP: the predecessor cell is still active because gap_score ≤ 0
      rw [tracebackAux_up ms mms gs q c rmb i j hi hj hH hdd]
      obtain ⟨i0, rfl⟩ : ∃ i0, i = i0 + 1 := ⟨i - 1, by omega⟩
      obtain ⟨j0, rfl⟩ : ∃ j0, j = j0 + 1 := ⟨j - 1, by omega⟩
      obtain ⟨hup, hpos⟩ := dirAt_up_eq ms mms gs q c i0 j0 hdd
      have hHup : 0 < H ms mms gs q c i0 (j0 + 1) := by
        rw [hup] at hpos
        omega
      obtain ⟨i1, rfl⟩ : ∃ i1, i0 = i1 + 1 := by
        rcases i0 with _ | i1
        · rw [H_zero_left] at hHup
          omega
        · exact ⟨i1, rfl⟩
      have hdir' : dirAt ms mms gs q c (i1 + 1) (j0 + 1) ≠ Direction.STOP := by
        intro hstop
        rw [(dirAt_stop_iff ms mms gs q c i1 j0).mp hstop] at hHup
        omega
      have := ih (i1 + 1) (j0 + 1) (by omega) (by omega) (by omega) hdir' hHup
      simp only [Nat.add_sub_cancel]
      exact ⟨by omega, this.2⟩
    · -- LEFT: the predecessor cell is still active because gap_score ≤ 0
      rw [tracebackAux_left ms mms gs q c rmb i j hi hj hH hdd]
      obtain ⟨i0, rfl⟩ : ∃ i0, i = i0 + 1 := ⟨i - 1, by omega⟩
      obtain ⟨j0, rfl⟩ : ∃ j0, j = j0 + 1 := ⟨j - 1, by omega⟩
      obtain ⟨hleft, hpos⟩ := dirAt_left_eq ms mms gs q c i0 j0 hdd
      have hHleft : 0 < H ms mms gs q c (i0 + 1) j0 := by
        omega
      obtain ⟨j1, rfl⟩ : ∃ j1, j0 = j1 + 1 := by
        rcases j0 with _ | j1
        · rw [H_zero_right] at hHleft
          omega
        · exact ⟨j1, rfl⟩
      have hdir' : dirAt ms mms gs q c (i0 + 1) (j1 + 1) ≠ Direction.STOP := by
        intro hstop
        rw [(dirAt_stop_iff ms mms gs q c i0 j1).mp hstop] at hHleft
        omega
      have := ih (i0 + 1) (j1 + 1) (by omega) (by omega) (by omega) hdir' hHleft
      simp only [Nat.add_sub_cancel]
      exact ⟨this.1, by omega⟩

/-! ### Grouping matched positions into blocks -/

theorem groupRuns_props :
    ∀ (rest : List Nat) (start prev b : Nat), start ≤ prev → prev < b →
      (∀ x ∈ rest, prev < x ∧ x < b) → List.Pairwise (· < ·) rest →
      (∀ blk ∈ groupRuns rest start prev,
        start ≤ blk.1 ∧ blk.1 < blk.2 ∧ blk.2 ≤ b) ∧
      List.Pairwise (fun u v : Nat × Nat => u.2 ≤ v.1) (groupRuns rest start prev) := by
  intro rest
  induction rest with
  | nil =>
    intro start prev b hsp hpb _ _
    refine ⟨?_, ?_⟩
    · intro blk hblk
      simp only [groupRuns, List.mem_singleton] at hblk
      subst hblk
      exact ⟨le_refl _, by omega, by omega⟩
    · exact List.pairwise_singleton _ _
  | cons pos rest ih =>
    intro start prev b hsp hpb hmem hpw
    have hpos : prev < pos ∧ pos < b := hmem pos (List.mem_cons_self pos rest)
    have hmem' : ∀ x ∈ rest, pos < x ∧ x < b := by
      intro x hx
      exact ⟨(List.pairwise_cons.mp hpw).1 x hx, (hmem x (List.mem_cons_of_mem pos hx)).2⟩
    have hpw' : List.Pairwise (· < ·) rest := (List.pairwise_cons.mp hpw).2
    by_cases hcons : pos = prev + 1
    · rw [groupRuns, if_pos hcons]
      exact ih start pos b (by omega) hpos.2 hmem' hpw'
    · rw [groupRuns, if_neg hcons]
      obtain ⟨ihb, ihpw⟩ := ih pos pos b (le_refl pos) hpos.2 hmem' hpw'
      refine ⟨?_, ?_⟩
      · intro blk hblk
        rcases List.mem_cons.mp hblk with h | h
        · subst h
          exact ⟨le_refl _, by omega, by omega⟩
        · obtain ⟨hb1, hb2, hb3⟩ := ihb blk h
          exact ⟨by omega, hb2, hb3⟩
      · refine List.Pairwise.cons ?_ ihpw
        intro blk hblk
        have := (ihb blk hblk).1
        simp only
        omega

theorem groupRuns_sum :
    ∀ (rest : List Nat) (start prev : Nat), start ≤ prev →
      ((groupRuns rest start prev).map (fun blk => blk.2 - blk.1)).sum =
        (prev + 1 - start) + rest.length := by
  intro rest
  induction rest with
  | nil =>
    intro start prev hsp
    simp [groupRuns]
  | cons pos rest ih =>
    intro start prev hsp
    by_cases hcons : pos = prev + 1
    · rw [groupRuns, if_pos hcons]
      rw [ih start pos (by omega)]
      simp only [List.length_cons]
      omega
    · rw [groupRuns, if_neg hcons]
      simp only [List.map_cons, List.sum_cons]
      rw [ih pos pos (le_refl pos)]
      simp only [List.length_cons]
      omega

theorem groupBlocks_props (l : List Nat) (a b : Nat)
    (hmem : ∀ x ∈ l, a ≤ x ∧ x < b) (hsort : List.Pairwise (· < ·) l) :
    (∀ blk ∈ groupBlocks l, a ≤ blk.1 ∧ blk.1 < blk.2 ∧ blk.2 ≤ b) ∧
    List.Pairwise (fun u v : Nat × Nat => u.2 ≤ v.1) (groupBlocks l) ∧
    ((groupBlocks l).map (fun blk => blk.2 - blk.1)).sum = l.length := by
  cases l with
  | nil =>
    refine ⟨?_, ?_, ?_⟩
    · intro blk hblk
      exact absurd hblk (List.not_mem_nil blk)
    · exact List.Pairwise.nil
    · rfl
  | cons p rest =>
    have hp : a ≤ p ∧ p < b := hmem p (List.mem_cons_self p rest)
    have hmem' : ∀ x ∈ rest, p < x ∧ x < b := by
      intro x hx
      exact ⟨(List.pairwise_cons.mp hsort).1 x hx,
        (hmem x (List.mem_cons_of_mem p hx)).2⟩
    have hpw' : List.Pairwise (· < ·) rest := (List.pairwise_cons.mp hsort).2
    obtain ⟨hb, hpw⟩ := groupRuns_props rest p p b (le_refl p) hp.2 hmem' hpw'
    refine ⟨?_, hpw, ?_⟩
    · intro blk hblk
      obtain ⟨hb1, hb2, hb3⟩ := hb blk hblk
      exact ⟨le_trans hp.1 hb1, hb2, hb3⟩
    · rw [groupBlocks]
      rw [groupRuns_sum rest p p (le_refl p)]
      simp only [List.length_cons]
      omega

/-! ### The selection key seen through `Alignment` fields -/

/-- The tuple `(token_start, -(token_end - token_start), query_start,
token_end, query_end)` of an `Alignment`, the tie-break key of the spec. -/
def alignmentKey (a : Alignment) : Int × Int × Int × Int × Int :=
  ((a.token_start : Int), -((a.token_end : Int) - (a.token_start : Int)),
    (a.query_start : Int), (a.token_end : Int), (a.query_end : Int))

theorem alignmentKey_endpoint (ms mms gs : Int) (q c : List Int) (rmb : Bool)
    (sc : Int) (p : Nat × Nat) :
    alignmentKey (endpointAlignment ms mms gs q c rmb sc p) =
      endpointKey ms mms gs q c rmb p := rfl

/-- Central structural lemma: on non-degenerate inputs, `align` returns the
alignment of some end point attaining `H*`, whose key is minimal among all
end points attaining `H*`. -/
theorem align_endpoint (ms mms gs : Int) (rmb : Bool) (q c : List Int)
    (hq : q ≠ []) (hc : c ≠ []) (hpos : 0 < hstar ms mms gs q c) :
    ∃ p ∈ cellList q.length c.length,
      H ms mms gs q c p.1 p.2 = hstar ms mms gs q c ∧
      align ms mms gs rmb q c =
        endpointAlignment ms mms gs q c rmb (hstar ms mms gs q c) p ∧
      (∀ p' ∈ cellList q.length c.length,
        H ms mms gs q c p'.1 p'.2 = hstar ms mms gs q c →
        keyLt (endpointKey ms mms gs q c rmb p')
          (endpointKey ms mms gs q c rmb p) = false) := by
  have hne : (q.isEmpty || c.isEmpty) = false := by
    simp [List.isEmpty_iff, hq, hc]
  have hfst : (maxScan (fun p => H ms mms gs q c p.1 p.2)
      (cellList q.length c.length)).1 = hstar ms mms gs q c :=
    maxScan_fst ms mms gs q c
  obtain ⟨j1, j2, j3, j4, j5⟩ :=
    foldl_scanStep_props (fun p => H ms mms gs q c p.1 p.2)
      (cellList q.length c.length) (0, [])
      (by intro p hp; exact absurd hp (List.not_mem_nil p))
      (by intro h; omega)
  have hms_eq : ∀ (f : Nat × Nat → Int) (cells : List (Nat × Nat)),
      cells.foldl (scanStep f) (0, []) = maxScan f cells := fun _ _ => rfl
  rw [hms_eq] at j1 j2 j3 j4
  set scan := maxScan (fun p => H ms mms gs q c p.1 p.2)
    (cellList q.length c.length) with hscan
  have hpos' : 0 < scan.1 := by rw [hfst]; exact hpos
  have hnonempty : scan.2 ≠ [] := j2 hpos'
  obtain ⟨p0, rest, hps⟩ := List.exists_cons_of_ne_nil hnonempty
  have halign : align ms mms gs rmb q c =
      ⟨scan.1, (scan.2.foldl (selectStep ms mms gs q c rmb)
          ⟨none, 0, 0, 0, 0, 0, []⟩).tokenStart,
        (scan.2.foldl (selectStep ms mms gs q c rmb)
          ⟨none, 0, 0, 0, 0, 0, []⟩).tokenEnd,
        (scan.2.foldl (selectStep ms mms gs q c rmb)
          ⟨none, 0, 0, 0, 0, 0, []⟩).queryStart,
        (scan.2.foldl (selectStep ms mms gs q c rmb)
          ⟨none, 0, 0, 0, 0, 0, []⟩).queryEnd,
        (scan.2.foldl (selectStep ms mms gs q c rmb)
          ⟨none, 0, 0, 0, 0, 0, []⟩).best_matches,
        (scan.2.foldl (selectStep ms mms gs q c rmb)
          ⟨none, 0, 0, 0, 0, 0, []⟩).blocks⟩ := by
    rw [align, hne]
    simp only [Bool.false_eq_true, if_false]
    rw [← hscan]
    rw [if_neg (by omega)]
  rw [hps] at halign
  rw [List.foldl_cons, selectStep_none ms mms gs q c rmb _ p0 rfl] at halign
  obtain ⟨p1, heq, hmem, hmin⟩ := selectFold_min ms mms gs q c rmb rest p0
  rw [heq] at halign
  have hmem1 : p1 ∈ scan.2 := by
    rw [hps]
    rcases hmem with h | h
    · exact h ▸ List.mem_cons_self p0 rest
    · exact List.mem_cons_of_mem p0 h
  refine ⟨p1, ?_, ?_, ?_, ?_⟩
  · rcases j4 p1 hmem1 with h | h
    · exact absurd h (List.not_mem_nil p1)
    · exact h
  · have := j1 p1 hmem1
    rw [hfst] at this
    exact this
  · rw [halign]
    have hsc : scan.1 = hstar ms mms gs q c := hfst
    rw [hsc]
    rfl
  · intro p' hp' hH'
    have hp'mem : p' ∈ scan.2 := by
      refine j3 p' hp' ?_ hpos'
      rw [hfst]
      exact hH'
    rw [hps] at hp'mem
    rcases List.mem_cons.mp hp'mem with h | h
    · exact h ▸ hmin p' (Or.inl h)
    · exact hmin p' (Or.inr h)

theorem endpointAlignment_eq (ms mms gs : Int) (q c : List Int) (rmb : Bool)
    (sc : Int) (p : Nat × Nat) :
    endpointAlignment ms mms gs q c rmb sc p =
      { score := sc
        token_start := (tracebackAux ms mms gs q c rmb p.1 p.2).2.1
        token_end := p.2
        query_start := (tracebackAux ms mms gs q c rmb p.1 p.2).1
        query_end := p.1
        «matches» := (tracebackAux ms mms gs q c rmb p.1 p.2).2.2.1
        match_blocks :=
          groupBlocks (tracebackAux ms mms gs q c rmb p.1 p.2).2.2.2.reverse } := rfl

/-- **C2.** On non-empty inputs with `H* > 0`: the per-cell traceback pointer
uses the priority `DIAG > UP > LEFT` on ties (`_choose_direction`), a cell
whose value reaches 0 is a STOP, and among all end-point cells attaining
`H*`, `align` returns the alignment whose traceback minimizes the tuple
`(token_start, -(token_end - token_start), query_start, token_end,
query_end)`. -/
theorem align_tiebreak (ms mms gs : Int) (rmb : Bool) (q c : List Int)
    (hq : q ≠ []) (hc : c ≠ []) (hpos : 0 < hstar ms mms gs q c) :
    (∀ best d u l : Int,
      (best = d → _choose_direction best d u l = Direction.DIAGONAL) ∧
      (best ≠ d → best = u → _choose_direction best d u l = Direction.UP) ∧
      (best ≠ d → best ≠ u → _choose_direction best d u l = Direction.LEFT)) ∧
    (∀ i j : Nat, dirAt ms mms gs q c (i + 1) (j + 1) = Direction.STOP ↔
      H ms mms gs q c (i + 1) (j + 1) = 0) ∧
    (∃ p ∈ cellList q.length c.length,
      H ms mms gs q c p.1 p.2 = hstar ms mms gs q c ∧
      align ms mms gs rmb q c =
        endpointAlignment ms mms gs q c rmb (hstar ms mms gs q c) p ∧
      ∀ p' ∈ cellList q.length c.length,
        H ms mms gs q c p'.1 p'.2 = hstar ms mms gs q c →
          keyLt
            (alignmentKey (endpointAlignment ms mms gs q c rmb
              (hstar ms mms gs q c) p'))
            (alignmentKey (align ms mms gs rmb q c)) = false) := by
  refine ⟨?_, ?_, ?_⟩
  · intro best d u l
    refine ⟨?_, ?_, ?_⟩
    · intro h
      unfold _choose_direction
      rw [if_pos h]
    · intro h1 h2
      unfold _choose_direction
      rw [if_neg h1, if_pos h2]
    · intro h1 h2
      unfold _choose_direction
      rw [if_neg h1, if_neg h2]
  · intro i j
    exact dirAt_stop_iff ms mms gs q c i j
  · obtain ⟨p, hpmem, hpH, halign, hmin⟩ :=
      align_endpoint ms mms gs rmb q c hq hc hpos
    refine ⟨p, hpmem, hpH, halign, ?_⟩
    intro p' hp' hH'
    rw [halign, alignmentKey_endpoint, alignmentKey_endpoint]
    exact hmin p' hp' hH'

/-- Closed witness for `align_tiebreak`. -/
theorem align_tiebreak_witness :
    (∀ best d u l : Int,
      (best = d → _choose_direction best d u l = Direction.DIAGONAL) ∧
      (best ≠ d → best = u → _choose_direction best d u l = Direction.UP) ∧
      (best ≠ d → best ≠ u → _choose_direction best d u l = Direction.LEFT)) ∧
    (∀ i j : Nat, dirAt 2 (-1) (-1) [1] [1] (i + 1) (j + 1) = Direction.STOP ↔
      H 2 (-1) (-1) [1] [1] (i + 1) (j + 1) = 0) ∧
    (∃ p ∈ cellList (1 : Nat) (1 : Nat),
      H 2 (-1) (-1) [1] [1] p.1 p.2 = hstar 2 (-1) (-1) [1] [1] ∧
      align 2 (-1) (-1) false [1] [1] =
        endpointAlignment 2 (-1) (-1) [1] [1] false (hstar 2 (-1) (-1) [1] [1]) p ∧
      ∀ p' ∈ cellList (1 : Nat) (1 : Nat),
        H 2 (-1) (-1) [1] [1] p'.1 p'.2 = hstar 2 (-1) (-1) [1] [1] →
          keyLt
            (alignmentKey (endpointAlignment 2 (-1) (-1) [1] [1] false
              (hstar 2 (-1) (-1) [1] [1]) p'))
            (alignmentKey (align 2 (-1) (-1) false [1] [1])) = false) :=
  align_tiebreak 2 (-1) (-1) false [1] [1] (by decide) (by decide) (by decide)

/-- **C3 (amended: `gap_score ≤ 0`).** Every `Alignment` returned by `align`
with a non-positive gap score satisfies the record invariant: `score ≥ 0`;
either all index fields and `matches` are 0 or both spans are non-empty; and
when match blocks are requested every block is a half-open range inside
`[token_start, token_end)`, the blocks are pairwise disjoint and sorted
ascending, and the sum of their lengths is at most `matches`. -/
theorem align_record_invariant (ms mms gs : Int) (rmb : Bool) (q c : List Int)
    (hgs : gs ≤ 0) :
    0 ≤ (align ms mms gs rmb q c).score ∧
    (((align ms mms gs rmb q c).token_start = 0 ∧
      (align ms mms gs rmb q c).token_end = 0 ∧
      (align ms mms gs rmb q c).query_start = 0 ∧
      (align ms mms gs rmb q c).query_end = 0 ∧
      (align ms mms gs rmb q c).«matches» = 0) ∨
     ((align ms mms gs rmb q c).query_start < (align ms mms gs rmb q c).query_end ∧
      (align ms mms gs rmb q c).token_start < (align ms mms gs rmb q c).token_end)) ∧
    (rmb = true →
      (∀ blk ∈ (align ms mms gs rmb q c).match_blocks,
        (align ms mms gs rmb q c).token_start ≤ blk.1 ∧ blk.1 < blk.2 ∧
          blk.2 ≤ (align ms mms gs rmb q c).token_end) ∧
      List.Pairwise (fun u v : Nat × Nat => u.2 ≤ v.1)
        (align ms mms gs rmb q c).match_blocks ∧
      ((align ms mms gs rmb q c).match_blocks.map (fun blk => blk.2 - blk.1)).sum ≤
        (align ms mms gs rmb q c).«matches») := by
  by_cases hdeg : q = [] ∨ c = [] ∨ hstar ms mms gs q c = 0
  · have hz : align ms mms gs rmb q c = zeroAlignment :=
      (align_score_eq_hstar ms mms gs rmb q c).2 hdeg
    rw [hz]
    refine ⟨le_refl 0, Or.inl ⟨rfl, rfl, rfl, rfl, rfl⟩, ?_⟩
    intro _
    refine ⟨?_, List.Pairwise.nil, ?_⟩
    · intro blk hblk
      exact absurd hblk (List.not_mem_nil blk)
    · exact le_refl 0
  · push_neg at hdeg
    obtain ⟨hq, hc, hst⟩ := hdeg
    have hpos : 0 < hstar ms mms gs q c :=
      lt_of_le_of_ne (hstar_nonneg ms mms gs q c) (Ne.symm hst)
    obtain ⟨p, hpmem, hpH, halign, _⟩ := align_endpoint ms mms gs rmb q c hq hc hpos
    obtain ⟨hp1a, hp1b, hp2a, hp2b⟩ := (cellList_mem q.length c.length p).mp hpmem
    have hHp : 0 < H ms mms gs q c p.1 p.2 := by
      rw [hpH]
      exact hpos
    have hdir : dirAt ms mms gs q c p.1 p.2 ≠ Direction.STOP := by
      intro hstop
      obtain ⟨i0, hi0⟩ : ∃ i0, p.1 = i0 + 1 := ⟨p.1 - 1, by omega⟩
      obtain ⟨j0, hj0⟩ : ∃ j0, p.2 = j0 + 1 := ⟨p.2 - 1, by omega⟩
      rw [hi0, hj0] at hstop
      have h0 := (dirAt_stop_iff ms mms gs q c i0 j0).mp hstop
      rw [hi0, hj0] at hHp
      omega
    have hstrict := tracebackAux_strict ms mms gs q c rmb hgs (p.1 + p.2) p.1 p.2
      (le_refl _) (by omega) (by omega) hdir hHp
    obtain ⟨t1, t2, t3, t4, t5, t6⟩ :=
      tracebackAux_props ms mms gs q c rmb (p.1 + p.2) p.1 p.2 (le_refl _)
    have hrev_mem : ∀ x ∈ (tracebackAux ms mms gs q c rmb p.1 p.2).2.2.2.reverse,
        (tracebackAux ms mms gs q c rmb p.1 p.2).2.1 ≤ x ∧ x < p.2 := by
      intro x hx
      exact t3 x (List.mem_reverse.mp hx)
    have hrev_sort : List.Pairwise (· < ·)
        (tracebackAux ms mms gs q c rmb p.1 p.2).2.2.2.reverse := by
      rw [List.pairwise_reverse]
      exact t4
    obtain ⟨g1, g2, g3⟩ := groupBlocks_props
      (tracebackAux ms mms gs q c rmb p.1 p.2).2.2.2.reverse
      (tracebackAux ms mms gs q c rmb p.1 p.2).2.1 p.2 hrev_mem hrev_sort
    rw [halign, endpointAlignment_eq]
    refine ⟨hpos.le, Or.inr ⟨hstrict.1, hstrict.2⟩, ?_⟩
    intro hrmb
    refine ⟨g1, g2, ?_⟩
    rw [g3, List.length_reverse, t5 hrmb]

/-- Closed witness for `align_record_invariant`. -/
theorem align_record_invariant_witness :
    ((-1 : Int) ≤ 0) ∧ 0 ≤ (align 2 (-1) (-1) true [1, 2] [0, 1, 2]).score :=
  ⟨by decide, (align_record_invariant 2 (-1) (-1) true [1, 2] [0, 1, 2] (by decide)).1⟩

/-- Counterexample to C3 as stated for arbitrary parameters: with a positive
gap score (`match=2, mismatch=-5, gap=1`) aligning `[0]` against `[1]` yields
`score = 1 > 0` with `token_start = token_end = 1`, violating the invariant
"all index fields 0 or both spans non-empty". -/
theorem align_record_invariant_cex :
    ¬(((align 2 (-5) 1 false [0] [1]).token_start = 0 ∧
       (align 2 (-5) 1 false [0] [1]).token_end = 0 ∧
       (align 2 (-5) 1 false [0] [1]).query_start = 0 ∧
       (align 2 (-5) 1 false [0] [1]).query_end = 0 ∧
       (align 2 (-5) 1 false [0] [1]).«matches» = 0) ∨
      ((align 2 (-5) 1 false [0] [1]).query_start <
        (align 2 (-5) 1 false [0] [1]).query_end ∧
       (align 2 (-5) 1 false [0] [1]).token_start <
        (align 2 (-5) 1 false [0] [1]).token_end)) := by decide

/-! ### Identical sequences -/

theorem H_le_match_min (ms mms gs : Int) (q c : List Int) (hms : 0 ≤ ms)
    (hmms : mms ≤ ms) (hgs : gs ≤ 0) :
    ∀ n i j, i + j ≤ n →
      H ms mms gs q c i j ≤ ms * ((min i j : Nat) : Int) := by
  intro n
  induction n with
  | zero =>
    intro i j hij
    have hi : i = 0 := by omega
    subst hi
    rw [H_zero_left]
    exact mul_nonneg hms (Int.natCast_nonneg _)
  | succ n ih =>
    intro i j hij
    match i, j with
    | 0, _ =>
      rw [H_zero_left]
      exact mul_nonneg hms (Int.natCast_nonneg _)
    | i + 1, 0 =>
      rw [H_zero_right]
      exact mul_nonneg hms (Int.natCast_nonneg _)
    | i + 1, j + 1 =>
      rw [H_succ]
      have hd := ih i j (by omega)
      have hu := ih i (j + 1) (by omega)
      have hl := ih (i + 1) j (by omega)
      have hmin1 : ((min i j : Nat) : Int) + 1 = ((min (i + 1) (j + 1) : Nat) : Int) := by
        have : min i j + 1 = min (i + 1) (j + 1) := by omega
        exact_mod_cast congrArg (fun k : Nat => (k : Int)) this
      have hminu : ((min i (j + 1) : Nat) : Int) ≤ ((min (i + 1) (j + 1) : Nat) : Int) := by
        have : min i (j + 1) ≤ min (i + 1) (j + 1) := by omega
        exact_mod_cast this
      have hminl : ((min (i + 1) j : Nat) : Int) ≤ ((min (i + 1) (j + 1) : Nat) : Int) := by
        have : min (i + 1) j ≤ min (i + 1) (j + 1) := by omega
        exact_mod_cast this
      have hmat : (if q.getD i 0 = c.getD j 0 then ms else mms) ≤ ms := by
        split
        · exact le_refl ms
        · exact hmms
      refine max_le (max_le (max_le ?_ ?_) ?_) ?_
      · exact mul_nonneg hms (Int.natCast_nonneg _)
      · calc H ms mms gs q c i j + (if q.getD i 0 = c.getD j 0 then ms else mms) ≤
            ms * ((min i j : Nat) : Int) + ms := add_le_add hd hmat
          _ = ms * (((min i j : Nat) : Int) + 1) := by ring
          _ = ms * ((min (i + 1) (j + 1) : Nat) : Int) := by rw [hmin1]
      · calc H ms mms gs q c i (j + 1) + gs ≤ ms * ((min i (j + 1) : Nat) : Int) + 0 :=
            add_le_add hu hgs
          _ = ms * ((min i (j + 1) : Nat) : Int) := by ring
          _ ≤ ms * ((min (i + 1) (j + 1) : Nat) : Int) :=
            mul_le_mul_of_nonneg_left hminu hms
      · calc H ms mms gs q c (i + 1) j + gs ≤ ms * ((min (i + 1) j : Nat) : Int) + 0 :=
            add_le_add hl hgs
          _ = ms * ((min (i + 1) j : Nat) : Int) := by ring
          _ ≤ ms * ((min (i + 1) (j + 1) : Nat) : Int) :=
            mul_le_mul_of_nonneg_left hminl hms

theorem max4_eq_diag (d u l : Int) (h0 : 0 ≤ d) (hu : u ≤ d) (hl : l ≤ d) :
    max (max (max 0 d) u) l = d := by
  rw [max_eq_right h0, max_eq_left hu, max_eq_left hl]

theorem H_diag_self (ms mms gs : Int) (s : List Int) (hms : 0 ≤ ms)
    (hmms : mms ≤ ms) (hgs : gs ≤ 0) :
    ∀ i, H ms mms gs s s i i = ms * (i : Int) := by
  intro i
  induction i with
  | zero =>
    rw [H_zero_left]
    simp
  | succ i ih =>
    rw [H_succ, if_pos rfl, ih]
    have hub1 : H ms mms gs s s i (i + 1) ≤ ms * (i : Int) := by
      have h := H_le_match_min ms mms gs s s hms hmms hgs (i + (i + 1)) i (i + 1)
        (le_refl _)
      have hmin : min i (i + 1) = i := by omega
      rw [hmin] at h
      exact h
    have hub2 : H ms mms gs s s (i + 1) i ≤ ms * (i : Int) := by
      have h := H_le_match_min ms mms gs s s hms hmms hgs ((i + 1) + i) (i + 1) i
        (le_refl _)
      have hmin : min (i + 1) i = i := by omega
      rw [hmin] at h
      exact h
    have heq : max (max (max 0 (ms * (i : Int) + ms))
        (H ms mms gs s s i (i + 1) + gs)) (H ms mms gs s s (i + 1) i + gs) =
        ms * (i : Int) + ms := by
      refine max4_eq_diag _ _ _ ?_ ?_ ?_
      · have : (0 : Int) ≤ ms * (i : Int) := mul_nonneg hms (Int.natCast_nonneg _)
        omega
      · have : H ms mms gs s s i (i + 1) + gs ≤ ms * (i : Int) + 0 := add_le_add hub1 hgs
        omega
      · have : H ms mms gs s s (i + 1) i + gs ≤ ms * (i : Int) + 0 := add_le_add hub2 hgs
        omega
    rw [heq]
    push_cast
    ring

theorem hstar_self (ms mms gs : Int) (s : List Int) (hms : 0 < ms)
    (hmms : mms ≤ ms) (hgs : gs ≤ 0) (hs : s ≠ []) :
    hstar ms mms gs s s = ms * (s.length : Int) := by
  have hlen : 0 < s.length := List.length_pos.mpr hs
  apply le_antisymm
  · unfold hstar
    refine foldl_max_le _ 0 _ (mul_nonneg hms.le (Int.natCast_nonneg _)) ?_
    intro x hx
    simp only [List.mem_map] at hx
    obtain ⟨p, hp, rfl⟩ := hx
    obtain ⟨h1, h2, h3, h4⟩ := (cellList_mem s.length s.length p).mp hp
    have hb := H_le_match_min ms mms gs s s hms.le hmms hgs (p.1 + p.2) p.1 p.2
      (le_refl _)
    have hle : ((min p.1 p.2 : Nat) : Int) ≤ (s.length : Int) := by
      have : min p.1 p.2 ≤ s.length := by omega
      exact_mod_cast this
    exact le_trans hb (mul_le_mul_of_nonneg_left hle hms.le)
  · have hmem : ((s.length, s.length) : Nat × Nat) ∈ cellList s.length s.length :=
      (cellList_mem s.length s.length (s.length, s.length)).mpr
        ⟨by omega, le_refl _, by omega, le_refl _⟩
    have hHL : H ms mms gs s s s.length s.length = ms * (s.length : Int) :=
      H_diag_self ms mms gs s hms.le hmms hgs s.length
    unfold hstar
    rw [← hHL]
    exact mem_le_foldl_max _ 0 _ (List.mem_map_of_mem _ hmem)

theorem dirAt_diag_self (ms mms gs : Int) (s : List Int) (hms : 0 < ms)
    (hmms : mms ≤ ms) (hgs : gs ≤ 0) (i : Nat) :
    dirAt ms mms gs s s (i + 1) (i + 1) = Direction.DIAGONAL := by
  rw [dirAt_succ]
  have hM : max (max (max 0 (H ms mms gs s s i i +
      (if s.getD i 0 = s.getD i 0 then ms else mms)))
      (H ms mms gs s s i (i + 1) + gs)) (H ms mms gs s s (i + 1) i + gs) =
      H ms mms gs s s (i + 1) (i + 1) := (H_succ ms mms gs s s i i).symm
  rw [hM]
  have hHpos : 0 < H ms mms gs s s (i + 1) (i + 1) := by
    rw [H_diag_self ms mms gs s hms.le hmms hgs (i + 1)]
    have : (0 : Int) < ((i : Int) + 1) := by
      have : (0 : Int) ≤ (i : Int) := Int.natCast_nonneg _
      omega
    push_cast
    exact mul_pos hms this
  rw [if_neg (by omega)]
  unfold _choose_direction
  rw [if_pos]
  rw [H_diag_self ms mms gs s hms.le hmms hgs (i + 1), if_pos rfl,
    H_diag_self ms mms gs s hms.le hmms hgs i]
  push_cast
  ring

theorem traceback_self_diag (ms mms gs : Int) (s : List Int) (hms : 0 < ms)
    (hmms : mms ≤ ms) (hgs : gs ≤ 0) :
    ∀ i, tracebackAux ms mms gs s s true i i = (0, 0, i, (List.range i).reverse) := by
  intro i
  induction i with
  | zero =>
    rw [tracebackAux_neg ms mms gs s s true 0 0 (by omega)]
    rfl
  | succ i ih =>
    have hH : 0 < H ms mms gs s s (i + 1) (i + 1) := by
      rw [H_diag_self ms mms gs s hms.le hmms hgs (i + 1)]
      have h0 : (0 : Int) ≤ (i : Int) := Int.natCast_nonneg _
      push_cast
      exact mul_pos hms (by omega)
    have hdir := dirAt_diag_self ms mms gs s hms hmms hgs i
    rw [tracebackAux_diag ms mms gs s s true (i + 1) (i + 1) (by omega) (by omega)
      hH hdir]
    simp only [Nat.add_sub_cancel, if_true]
    rw [ih]
    have hr : (List.range (i + 1)).reverse = i :: (List.range i).reverse := by
      rw [List.range_succ, List.reverse_append]
      rfl
    rw [hr]

theorem groupRuns_range' :
    ∀ (k start prev : Nat),
      groupRuns (List.range' (prev + 1) k) start prev = [(start, prev + k + 1)] := by
  intro k
  induction k with
  | zero => intro start prev; rfl
  | succ k ih =>
    intro start prev
    show groupRuns ((prev + 1) :: List.range' (prev + 1 + 1) k) start prev = _
    rw [groupRuns, if_pos rfl]
    rw [ih start (prev + 1)]
    have : prev + 1 + k + 1 = prev + (k + 1) + 1 := by omega
    rw [this]

theorem groupBlocks_range (L : Nat) (hL : 0 < L) :
    groupBlocks (List.range L) = [(0, L)] := by
  obtain ⟨l0, rfl⟩ : ∃ l0, L = l0 + 1 := ⟨L - 1, by omega⟩
  have h1 : List.range (l0 + 1) = 0 :: List.range' 1 l0 := by
    rw [List.range_eq_range']
    rfl
  rw [h1, groupBlocks]
  have h2 := groupRuns_range' l0 0 0
  simpa using h2

/-- **C4 (amended: `0 < match_score`, `mismatch_score ≤ match_score`,
`gap_score ≤ 0`).** On identical non-empty sequences of length `L` (with
match blocks requested), `align` returns score `match_score · L`,
`token_start = query_start = 0`, `token_end = query_end = L`, `matches = L`,
and the single match block `[0, L)`. -/
theorem align_self (ms mms gs : Int) (s : List Int) (hms : 0 < ms)
    (hmms : mms ≤ ms) (hgs : gs ≤ 0) (hs : s ≠ []) :
    align ms mms gs true s s =
      ⟨ms * (s.length : Int), 0, s.length, 0, s.length, s.length,
        [(0, s.length)]⟩ := by
  have hlen : 0 < s.length := List.length_pos.mpr hs
  have hh : hstar ms mms gs s s = ms * (s.length : Int) :=
    hstar_self ms mms gs s hms hmms hgs hs
  have hpos : 0 < hstar ms mms gs s s := by
    rw [hh]
    exact mul_pos hms (by exact_mod_cast hlen)
  obtain ⟨p, hpmem, hpH, halign, _⟩ := align_endpoint ms mms gs true s s hs hs hpos
  obtain ⟨h1, h2, h3, h4⟩ := (cellList_mem s.length s.length p).mp hpmem
  have hpLL : p = (s.length, s.length) := by
    have hb := H_le_match_min ms mms gs s s hms.le hmms hgs (p.1 + p.2) p.1 p.2
      (le_refl _)
    rw [hpH, hh] at hb
    have hmin : (s.length : Int) ≤ ((min p.1 p.2 : Nat) : Int) :=
      (mul_le_mul_left hms).mp hb
    have hmin' : s.length ≤ min p.1 p.2 := by exact_mod_cast hmin
    obtain ⟨p1, p2⟩ := p
    simp only at h1 h2 h3 h4 hmin'
    have : p1 = s.length ∧ p2 = s.length := by omega
    rw [this.1, this.2]
  rw [hpLL] at halign
  rw [halign, endpointAlignment_eq]
  rw [hh]
  have htb := traceback_self_diag ms mms gs s hms hmms hgs s.length
  simp only
  rw [htb]
  rw [List.reverse_reverse]
  rw [groupBlocks_range s.length hlen]

/-- Closed witness for `align_self`. -/
theorem align_self_witness :
    align 2 (-1) (-1) true [5] [5] = ⟨2, 0, 1, 0, 1, 1, [(0, 1)]⟩ := by
  have h := align_self 2 (-1) (-1) [5] (by decide) (by decide) (by decide)
    (by decide)
  simpa using h

/-- Counterexample to C4 as stated for arbitrary parameters: with
`match=1, mismatch=5, gap=-1` on the identical sequences `[1, 2]`, the
returned score is 5, not `match_score · L = 2`. -/
theorem align_self_cex :
    align 1 5 (-1) true [1, 2] [1, 2] ≠
      ⟨1 * (([1, 2] : List Int).length : Int), 0, 2, 0, 2, 2, [(0, 2)]⟩ := by
  decide

/-! ## Passage windowing (`text/passage.py`) -/

/-- The `Segment` record from `core/results.py` (text as a character list). -/
structure Segment where
  text : List Char
  doc_char_start : Nat
  doc_char_end : Nat
deriving DecidableEq, Repr

instance : Inhabited Segment := ⟨⟨[], 0, 0⟩⟩

/-- The `Passage` record from `text/passage.py`. -/
structure Passage where
  text : List Char
  doc_char_start : Nat
  doc_char_end : Nat
  segment_start : Nat
  segment_end : Nat
deriving DecidableEq, Repr

/-- Python slice `text[a:b]` on natural offsets. -/
def pySlice (t : List Char) (a b : Nat) : List Char := (t.drop a).take (b - a)

/-- `_window_from_segments` from `text/passage.py`. -/
def _window_from_segments (text : List Char) (segments : List Segment)
    (startIdx endIdx : Nat) : Passage :=
  ⟨pySlice text (segments.getD startIdx default).doc_char_start
      (segments.getD (endIdx - 1) default).doc_char_end,
    (segments.getD startIdx default).doc_char_start,
    (segments.getD (endIdx - 1) default).doc_char_end,
    startIdx, endIdx⟩

/-- The `while` loop of `generate_passages`, fuel-indexed; any
`fuel ≥ segments.length - idx` gives the loop's behaviour when the stride is
positive (`passagesLoop_irrel`). -/
def passagesLoop (text : List Char) (segments : List Segment)
    (window stride : Nat) : Nat → Nat → List Passage
  | 0, _ => []
  | fuel + 1, idx =>
    if idx < segments.length then
      if min segments.length (idx + window) = segments.length then
        [_window_from_segments text segments idx (min segments.length (idx + window))]
      else
        _window_from_segments text segments idx (min segments.length (idx + window)) ::
          passagesLoop text segments window stride fuel (idx + stride)
    else []

/-- `generate_passages` from `text/passage.py`: clamps the window and stride
to at least 1 and slides over the segment list. -/
def generate_passages (text : List Char) (segments : List Segment)
    (window_size_sentences window_stride_sentences : Int) : List Passage :=
  if segments.isEmpty then []
  else
    passagesLoop text segments (max 1 window_size_sentences).toNat
      (max 1 window_stride_sentences).toNat segments.length 0

theorem passagesLoop_irrel (text : List Char) (segments : List Segment)
    (window stride : Nat) (hs : 0 < stride) :
    ∀ f1 f2 idx, segments.length - idx ≤ f1 → segments.length - idx ≤ f2 →
      passagesLoop text segments window stride f1 idx =
        passagesLoop text segments window stride f2 idx := by
  intro f1
  induction f1 with
  | zero =>
    intro f2 idx h1 h2
    cases f2 with
    | zero => rfl
    | succ f2 =>
      simp only [passagesLoop]
      rw [if_neg (by omega)]
  | succ f1 ih =>
    intro f2 idx h1 h2
    cases f2 with
    | zero =>
      simp only [passagesLoop]
      rw [if_neg (by omega)]
    | succ f2 =>
      simp only [passagesLoop]
      by_cases hlt : idx < segments.length
      · rw [if_pos hlt, if_pos hlt]
        by_cases hmin : min segments.length (idx + window) = segments.length
        · rw [if_pos hmin, if_pos hmin]
        · rw [if_neg hmin, if_neg hmin]
          rw [ih f2 (idx + stride) (by omega) (by omega)]
      · rw [if_neg hlt, if_neg hlt]

theorem passagesLoop_mem (text : List Char) (segments : List Segment)
    (window stride : Nat) (hw : 0 < window) :
    ∀ fuel idx, ∀ p ∈ passagesLoop text segments window stride fuel idx,
      ∃ a b, p = _window_from_segments text segments a b ∧ idx ≤ a ∧
        a < b ∧ b ≤ segments.length := by
  intro fuel
  induction fuel with
  | zero =>
    intro idx p hp
    exact absurd hp (List.not_mem_nil p)
  | succ fuel ih =>
    intro idx p hp
    simp only [passagesLoop] at hp
    by_cases hlt : idx < segments.length
    · rw [if_pos hlt] at hp
      by_cases hmin : min segments.length (idx + window) = segments.length
      · rw [if_pos hmin] at hp
        simp only [List.mem_singleton] at hp
        exact ⟨idx, min segments.length (idx + window), hp, le_refl _,
          by omega, by omega⟩
      · rw [if_neg hmin] at hp
        rcases List.mem_cons.mp hp with hp | hp
        · exact ⟨idx, min segments.length (idx + window), hp, le_refl _,
            by omega, by omega⟩
        · obtain ⟨a, b, hab, hia, hb1, hb2⟩ := ih (idx + stride) p hp
          exact ⟨a, b, hab, by omega, hb1, hb2⟩
    · rw [if_neg hlt] at hp
      exact absurd hp (List.not_mem_nil p)

/-- **C6.** Every `Passage` returned by `generate_passages` carries the
character bounds of its window — `doc_char_start` of the first segment and
`doc_char_end` of the last segment — and its `text` is the exact slice
`source_text[doc_char_start:doc_char_end]`. -/
theorem generate_passages_window_bounds (text : List Char) (segments : List Segment)
    (ws ss : Int) :
    ∀ p ∈ generate_passages text segments ws ss,
      p.segment_start < p.segment_end ∧ p.segment_end ≤ segments.length ∧
      p.doc_char_start = (segments.getD p.segment_start default).doc_char_start ∧
      p.doc_char_end = (segments.getD (p.segment_end - 1) default).doc_char_end ∧
      p.text = pySlice text p.doc_char_start p.doc_char_end := by
  intro p hp
  unfold generate_passages at hp
  by_cases hseg : segments.isEmpty
  · rw [if_pos hseg] at hp
    exact absurd hp (List.not_mem_nil p)
  · rw [if_neg hseg] at hp
    have hw : 0 < (max 1 ws).toNat := by
      have h1 : (1 : Int) ≤ max 1 ws := le_max_left 1 ws
      omega
    obtain ⟨a, b, hab, _, hb1, hb2⟩ := passagesLoop_mem text segments
      (max 1 ws).toNat (max 1 ss).toNat hw segments.length 0 p hp
    subst hab
    exact ⟨hb1, hb2, rfl, rfl, rfl⟩

/-- Closed witness for `generate_passages_window_bounds`. -/
theorem generate_passages_window_bounds_witness :
    (Passage.mk [] 0 1 0 1) ∈
        generate_passages [] [Segment.mk [] 0 1] 1 1 ∧
      (Passage.mk [] 0 1 0 1).segment_start < (Passage.mk [] 0 1 0 1).segment_end :=
  ⟨by decide,
    (generate_passages_window_bounds [] [Segment.mk [] 0 1] 1 1
      (Passage.mk [] 0 1 0 1) (by decide)).1⟩

theorem passagesLoop_exact (text : List Char) (segments : List Segment)
    (w s : Nat) (hs : 0 < s) (hsw : s ≤ w) :
    ∀ fuel t, segments.length - t * s ≤ fuel → t * s < segments.length →
      (∀ k < t, k * s + w < segments.length) →
      ∃ K, t ≤ K ∧
        passagesLoop text segments w s fuel (t * s) =
          (List.range' t (K + 1 - t)).map (fun k =>
            _window_from_segments text segments (k * s)
              (min segments.length (k * s + w))) ∧
        segments.length ≤ K * s + w ∧
        (∀ k < K, k * s + w < segments.length) := by
  intro fuel
  induction fuel with
  | zero =>
    intro t h1 h2 h3
    omega
  | succ fuel ih =>
    intro t h1 h2 h3
    simp only [passagesLoop]
    rw [if_pos h2]
    by_cases hmin : min segments.length (t * s + w) = segments.length
    · rw [if_pos hmin]
      refine ⟨t, le_refl t, ?_, by omega, h3⟩
      have hr : t + 1 - t = 1 := by omega
      rw [hr]
      rfl
    · rw [if_neg hmin]
      have hlt : t * s + w < segments.length := by omega
      have hnext : (t + 1) * s < segments.length := by
        have : (t + 1) * s = t * s + s := by ring
        omega
      have hstep : t * s + s = (t + 1) * s := by ring
      rw [hstep]
      obtain ⟨K, hK1, hK2, hK3, hK4⟩ := ih (t + 1)
        (by
          have hh : (t + 1) * s = t * s + s := by ring
          omega) hnext
        (by
          intro k hk
          rcases Nat.lt_succ_iff_lt_or_eq.mp hk with hk | hk
          · exact h3 k hk
          · subst hk
            exact hlt)
      refine ⟨K, by omega, ?_, hK3, hK4⟩
      rw [hK2]
      have hr : K + 1 - t = (K + 1 - (t + 1)) + 1 := by omega
      rw [hr, List.range'_succ, List.map_cons]

/-- **C7 (amended: requires `stride ≤ window`; in general a stride larger
than the window can leave the tail of the segment list uncovered and the
loop then exits without any window reaching the last segment).**
`generate_passages` emits exactly the windows starting at `0, s, 2s, …`
up to and including the first one whose end index reaches `n`; empty
segmentations yield no passages. -/
theorem generate_passages_windows (text : List Char) (segments : List Segment)
    (ws ss : Int) (hsw : ss ≤ ws) :
    (segments = [] → generate_passages text segments ws ss = []) ∧
    (segments ≠ [] →
      ∃ K : Nat,
        generate_passages text segments ws ss =
          (List.range (K + 1)).map (fun k =>
            _window_from_segments text segments (k * (max 1 ss).toNat)
              (min segments.length
                (k * (max 1 ss).toNat + (max 1 ws).toNat))) ∧
        segments.length ≤ K * (max 1 ss).toNat + (max 1 ws).toNat ∧
        (∀ k < K,
          k * (max 1 ss).toNat + (max 1 ws).toNat < segments.length)) := by
  constructor
  · intro hseg
    subst hseg
    rfl
  · intro hseg
    have hlen : 0 < segments.length := List.length_pos.mpr hseg
    have hs : 0 < (max 1 ss).toNat := by
      have h1 : (1 : Int) ≤ max 1 ss := le_max_left 1 ss
      omega
    have hw : (max 1 ss).toNat ≤ (max 1 ws).toNat := by
      have h1 : max 1 ss ≤ max 1 ws := max_le_max (le_refl 1) hsw
      have h2 : (0 : Int) ≤ max 1 ss := le_trans (by omega) (le_max_left 1 ss)
      omega
    obtain ⟨K, _, hK2, hK3, hK4⟩ := passagesLoop_exact text segments
      (max 1 ws).toNat (max 1 ss).toNat hs hw segments.length 0
      (by omega) (by omega) (by omega)
    refine ⟨K, ?_, hK3, hK4⟩
    unfold generate_passages
    rw [if_neg (by simpa [List.isEmpty_iff] using hseg)]
    have h0 : (0 : Nat) * (max 1 ss).toNat = 0 := by ring
    rw [← h0, hK2]
    rw [List.range_eq_range']
    have : K + 1 - 0 = K + 1 := by omega
    rw [this]

/-- Closed witness for `generate_passages_windows`. -/
theorem generate_passages_windows_witness :
    generate_passages [] ([] : List Segment) 1 1 = [] ∧
      ((Segment.mk [] 0 1) :: [] ≠ [] →
        ∃ K : Nat,
          generate_passages [] [Segment.mk [] 0 1] 1 1 =
            (List.range (K + 1)).map (fun k =>
              _window_from_segments [] [Segment.mk [] 0 1]
                (k * (max 1 (1 : Int)).toNat)
                (min ([Segment.mk [] 0 1] : List Segment).length
                  (k * (max 1 (1 : Int)).toNat + (max 1 (1 : Int)).toNat))) ∧
          ([Segment.mk [] 0 1] : List Segment).length ≤
            K * (max 1 (1 : Int)).toNat + (max 1 (1 : Int)).toNat ∧
          (∀ k < K,
            k * (max 1 (1 : Int)).toNat + (max 1 (1 : Int)).toNat <
              ([Segment.mk [] 0 1] : List Segment).length)) :=
  ⟨(generate_passages_windows [] [] 1 1 (by decide)).1 rfl,
    (generate_passages_windows [] [Segment.mk [] 0 1] 1 1 (by decide)).2⟩

/-- Counterexample to C7 as stated: with 4 segments, window 1 and stride 2,
the loop stops with `idx = 4 ≥ 4` after emitting windows `[0,1)` and `[2,3)`;
no emitted window reaches the last segment, although the claim promises the
enumeration runs "up to and including the first window whose end index
reaches n". -/
theorem generate_passages_windows_cex :
    generate_passages []
        [Segment.mk [] 0 0, Segment.mk [] 0 0, Segment.mk [] 0 0,
          Segment.mk [] 0 0] 1 2 ≠ [] ∧
      ∀ p ∈ generate_passages []
          [Segment.mk [] 0 0, Segment.mk [] 0 0, Segment.mk [] 0 0,
            Segment.mk [] 0 0] 1 2, p.segment_end ≠ 4 := by decide

/-- **C8 (amended).** `generate_passages` does not fail on window or stride
values below 1: it silently clamps both to 1 (`window = max(1, ...)`,
`stride = max(1, ...)`) and produces the same passages as the clamped call —
in particular a non-empty segmentation still yields at least one passage. -/
theorem generate_passages_clamps (text : List Char) (segments : List Segment)
    (ws ss : Int) (hbad : ws < 1 ∨ ss < 1) :
    generate_passages text segments ws ss =
      generate_passages text segments (max 1 ws) (max 1 ss) ∧
    (segments ≠ [] → generate_passages text segments ws ss ≠ []) := by
  constructor
  · unfold generate_passages
    rw [max_eq_right (le_max_left 1 ws), max_eq_right (le_max_left 1 ss)]
  · intro hseg
    have hlen : 0 < segments.length := List.length_pos.mpr hseg
    unfold generate_passages
    rw [if_neg (by simpa [List.isEmpty_iff] using hseg)]
    obtain ⟨k, hk⟩ : ∃ k, segments.length = k + 1 := ⟨segments.length - 1, by omega⟩
    rw [hk]
    simp only [passagesLoop]
    rw [if_pos (by omega)]
    by_cases hmin : min segments.length (0 + (max 1 ws).toNat) = segments.length
    · rw [if_pos hmin]
      exact fun h => List.noConfusion h
    · rw [if_neg hmin]
      exact fun h => List.noConfusion h

/-- Closed witness for `generate_passages_clamps`. -/
theorem generate_passages_clamps_witness :
    generate_passages [] [Segment.mk [] 0 1] (-3) 0 =
        generate_passages [] [Segment.mk [] 0 1] (max 1 (-3)) (max 1 0) ∧
      ((-3 : Int) < 1 ∨ (0 : Int) < 1) :=
  ⟨(generate_passages_clamps [] [Segment.mk [] 0 1] (-3) 0 (Or.inl (by decide))).1,
    Or.inl (by decide)⟩

/-- Counterexample to C8 as stated: a call with `window_size_sentences = -3`
and `window_stride_sentences = -3` does not fail — it produces a (non-empty)
passage list. -/
theorem generate_passages_reject_cex :
    generate_passages [] [Segment.mk [] 0 1] (-3) (-3) ≠ [] := by decide

/-! ## The simple tokenizer (`text/tokenizer.py`)

Python's Unicode predicates `str.isdigit` / `str.isalnum` and the
NFKC + casefold base normalisation are runtime data; they appear as the
explicit parameters `isdigit`, `isalnum` and `nfkcCasefold`. -/

/-- The straight apostrophe. -/
def apostrophe : Char := Char.ofNat 39

/-- The right single quotation mark `’`. -/
def rightQuote : Char := Char.ofNat 0x2019

/-- Fuel-indexed inner `while` of the number branch of `_iter_token_spans`:
consume digits and decimal separators between digits. -/
def digitScanF (isdigit : Char → Bool) (t : List Char) : Nat → Nat → Nat
  | 0, idx => idx
  | fuel + 1, idx =>
    if idx < t.length then
      if isdigit (t.getD idx default) then digitScanF isdigit t fuel (idx + 1)
      else if (t.getD idx default = '.' ∨ t.getD idx default = ',') ∧
          idx + 1 < t.length ∧ isdigit (t.getD (idx - 1) default) ∧
          isdigit (t.getD (idx + 1) default) then
        digitScanF isdigit t fuel (idx + 1)
      else idx
    else idx

/-- Fuel-indexed inner `while` of the word branch of `_iter_token_spans`:
consume alphanumerics and internal apostrophes/hyphens. -/
def alnumScanF (isalnum : Char → Bool) (t : List Char) : Nat → Nat → Nat
  | 0, idx => idx
  | fuel + 1, idx =>
    if idx < t.length then
      if isalnum (t.getD idx default) then alnumScanF isalnum t fuel (idx + 1)
      else if (t.getD idx default = apostrophe ∨ t.getD idx default = rightQuote) ∧
          idx + 1 < t.length ∧ isalnum (t.getD (idx - 1) default) ∧
          isalnum (t.getD (idx + 1) default) then
        alnumScanF isalnum t fuel (idx + 1)
      else if t.getD idx default = '-' ∧ idx + 1 < t.length ∧
          isalnum (t.getD (idx - 1) default) ∧ isalnum (t.getD (idx + 1) default) then
        alnumScanF isalnum t fuel (idx + 1)
      else idx
    else idx

/-- The number-token scan starting after the first digit. -/
def digitScan (isdigit : Char → Bool) (t : List Char) (idx : Nat) : Nat :=
  digitScanF isdigit t t.length idx

/-- The word-token scan starting after the first alphanumeric. -/
def alnumScan (isalnum : Char → Bool) (t : List Char) (idx : Nat) : Nat :=
  alnumScanF isalnum t t.length idx

/-- Fuel-indexed outer `while` of `_iter_token_spans`. -/
def iterSpansF (isdigit isalnum : Char → Bool) (t : List Char) :
    Nat → Nat → List (Nat × Nat)
  | 0, _ => []
  | fuel + 1, idx =>
    if idx < t.length then
      if isdigit (t.getD idx default) then
        (idx, digitScan isdigit t (idx + 1)) ::
          iterSpansF isdigit isalnum t fuel (digitScan isdigit t (idx + 1))
      else if t.getD idx default = '%' ∨ t.getD idx default = '$' ∨
          t.getD idx default = '€' ∨ t.getD idx default = '£' then
        (idx, idx + 1) :: iterSpansF isdigit isalnum t fuel (idx + 1)
      else if isalnum (t.getD idx default) then
        (idx, alnumScan isalnum t (idx + 1)) ::
          iterSpansF isdigit isalnum t fuel (alnumScan isalnum t (idx + 1))
      else iterSpansF isdigit isalnum t fuel (idx + 1)
    else []

/-- `_iter_token_spans` from `text/tokenizer.py`. -/
def _iter_token_spans (isdigit isalnum : Char → Bool) (t : List Char) :
    List (Nat × Nat) :=
  iterSpansF isdigit isalnum t t.length 0

/-- `TokenizerConfig` from `text/tokenizer.py`. -/
structure TokenizerConfig where
  normalize_numbers : Bool
  normalize_percent : Bool
  normalize_currency : Bool
deriving DecidableEq, Repr

/-- `_normalize_token` from `text/tokenizer.py`, with the NFKC + casefold
base normalisation abstracted as `nfkcCasefold`. -/
def _normalize_token (nfkcCasefold : List Char → List Char)
    (isdigit : Char → Bool) (config : TokenizerConfig) (token : List Char) :
    List Char :=
  let normalized0 := (nfkcCasefold token).map
    (fun ch => if ch = rightQuote then apostrophe else ch)
  let normalized :=
    if config.normalize_numbers ∧ normalized0 ≠ [] ∧
        isdigit (normalized0.headD default) then
      normalized0.filter (fun ch => decide (ch ≠ ','))
    else normalized0
  if config.normalize_percent ∧ normalized = ['%'] then "percent".toList
  else if config.normalize_currency ∧ normalized = ['$'] then "dollar".toList
  else if config.normalize_currency ∧ normalized = ['€'] then "euro".toList
  else if config.normalize_currency ∧ normalized = ['£'] then "pound".toList
  else normalized

/-- The tokenizer's private vocabulary (`self._vocab`, `self._next_id`). -/
structure TokState where
  vocab : List (List Char × Nat)
  next_id : Nat
deriving DecidableEq, Repr

/-- The state of a fresh `SimpleTokenizer` (`_vocab = {}`, `_next_id = 1`). -/
def initialTokState : TokState := ⟨[], 1⟩

/-- `self._vocab.get(key)`. -/
def vocabGet : List (List Char × Nat) → List Char → Option Nat
  | [], _ => none
  | e :: v, key => if e.1 = key then some e.2 else vocabGet v key

/-- The `TokenizedText` record from `core/results.py`. -/
structure TokenizedText where
  text : List Char
  token_ids : List Nat
  token_spans : List (Nat × Nat)
deriving DecidableEq, Repr

instance : Inhabited TokenizedText := ⟨⟨[], [], []⟩⟩

/-- The `for start, end in _iter_token_spans(text)` loop of
`SimpleTokenizer.tokenize`, threading the vocabulary state. -/
def tokenizeLoop (norm : List Char → List Char) (t : List Char) :
    List (Nat × Nat) → TokState → List Nat × List (Nat × Nat) × TokState
  | [], st => ([], [], st)
  | sp :: rest, st =>
    if _normalizedEmpty : norm (pySlice t sp.1 sp.2) = [] then
      tokenizeLoop norm t rest st
    else
      match vocabGet st.vocab (norm (pySlice t sp.1 sp.2)) with
      | some token_id =>
        ((tokenizeLoop norm t rest st).1.cons token_id,
          (tokenizeLoop norm t rest st).2.1.cons sp,
          (tokenizeLoop norm t rest st).2.2)
      | none =>
        ((tokenizeLoop norm t rest
            ⟨st.vocab ++ [(norm (pySlice t sp.1 sp.2), st.next_id)],
              st.next_id + 1⟩).1.cons st.next_id,
          (tokenizeLoop norm t rest
            ⟨st.vocab ++ [(norm (pySlice t sp.1 sp.2), st.next_id)],
              st.next_id + 1⟩).2.1.cons sp,
          (tokenizeLoop norm t rest
            ⟨st.vocab ++ [(norm (pySlice t sp.1 sp.2), st.next_id)],
              st.next_id + 1⟩).2.2)

/-- `SimpleTokenizer.tokenize` with the normalisation function `norm`
(in the source, `_normalize_token` through an `lru_cache`, which is pure
caching). -/
def tokenize (isdigit isalnum : Char → Bool) (norm : List Char → List Char)
    (st : TokState) (t : List Char) : TokenizedText × TokState :=
  (⟨t, (tokenizeLoop norm t (_iter_token_spans isdigit isalnum t) st).1,
      (tokenizeLoop norm t (_iter_token_spans isdigit isalnum t) st).2.1⟩,
    (tokenizeLoop norm t (_iter_token_spans isdigit isalnum t) st).2.2)

/-- A sequence of `tokenize` calls on one `SimpleTokenizer` instance. -/
def tokenizeAll (isdigit isalnum : Char → Bool) (norm : List Char → List Char) :
    TokState → List (List Char) → List TokenizedText × TokState
  | st, [] => ([], st)
  | st, t :: ts =>
    ((tokenizeAll isdigit isalnum norm
        (tokenize isdigit isalnum norm st t).2 ts).1.cons
      (tokenize isdigit isalnum norm st t).1,
      (tokenizeAll isdigit isalnum norm
        (tokenize isdigit isalnum norm st t).2 ts).2)

/-- The spans `tokenize` keeps: those whose normalised token is non-empty. -/
def keptSpans (isdigit isalnum : Char → Bool) (norm : List Char → List Char)
    (t : List Char) : List (Nat × Nat) :=
  (_iter_token_spans isdigit isalnum t).filter
    (fun sp => decide (norm (pySlice t sp.1 sp.2) ≠ []))

/-- The normalised forms of the tokens `tokenize` emits, in order. -/
def keptNorms (isdigit isalnum : Char → Bool) (norm : List Char → List Char)
    (t : List Char) : List (List Char) :=
  (keptSpans isdigit isalnum norm t).map (fun sp => norm (pySlice t sp.1 sp.2))

/-! ### Token-span invariants -/

theorem digitScanF_ge (isdigit : Char → Bool) (t : List Char) :
    ∀ fuel idx, idx ≤ digitScanF isdigit t fuel idx := by
  intro fuel
  induction fuel with
  | zero => intro idx; exact le_refl idx
  | succ fuel ih =>
    intro idx
    simp only [digitScanF]
    by_cases h1 : idx < t.length
    · rw [if_pos h1]
      by_cases h2 : isdigit (t.getD idx default) = true
      · rw [if_pos h2]
        exact le_trans (by omega) (ih (idx + 1))
      · rw [if_neg h2]
        by_cases h3 : (t.getD idx default = '.' ∨ t.getD idx default = ',') ∧
            idx + 1 < t.length ∧ isdigit (t.getD (idx - 1) default) ∧
            isdigit (t.getD (idx + 1) default)
        · rw [if_pos h3]
          exact le_trans (by omega) (ih (idx + 1))
        · rw [if_neg h3]
    · rw [if_neg h1]

theorem digitScanF_le (isdigit : Char → Bool) (t : List Char) :
    ∀ fuel idx, idx ≤ t.length → digitScanF isdigit t fuel idx ≤ t.length := by
  intro fuel
  induction fuel with
  | zero => intro idx h; exact h
  | succ fuel ih =>
    intro idx h
    simp only [digitScanF]
    by_cases h1 : idx < t.length
    · rw [if_pos h1]
      by_cases h2 : isdigit (t.getD idx default) = true
      · rw [if_pos h2]
        exact ih (idx + 1) (by omega)
      · rw [if_neg h2]
        by_cases h3 : (t.getD idx default = '.' ∨ t.getD idx default = ',') ∧
            idx + 1 < t.length ∧ isdigit (t.getD (idx - 1) default) ∧
            isdigit (t.getD (idx + 1) default)
        · rw [if_pos h3]
          exact ih (idx + 1) (by omega)
        · rw [if_neg h3]
          exact h
    · rw [if_neg h1]
      exact h

theorem alnumScanF_ge (isalnum : Char → Bool) (t : List Char) :
    ∀ fuel idx, idx ≤ alnumScanF isalnum t fuel idx := by
  intro fuel
  induction fuel with
  | zero => intro idx; exact le_refl idx
  | succ fuel ih =>
    intro idx
    simp only [alnumScanF]
    by_cases h1 : idx < t.length
    · rw [if_pos h1]
      by_cases h2 : isalnum (t.getD idx default) = true
      · rw [if_pos h2]
        exact le_trans (by omega) (ih (idx + 1))
      · rw [if_neg h2]
        by_cases h3 : (t.getD idx default = apostrophe ∨
            t.getD idx default = rightQuote) ∧ idx + 1 < t.length ∧
            isalnum (t.getD (idx - 1) default) ∧ isalnum (t.getD (idx + 1) default)
        · rw [if_pos h3]
          exact le_trans (by omega) (ih (idx + 1))
        · rw [if_neg h3]
          by_cases h4 : t.getD idx default = '-' ∧ idx + 1 < t.length ∧
              isalnum (t.getD (idx - 1) default) ∧ isalnum (t.getD (idx + 1) default)
          · rw [if_pos h4]
            exact le_trans (by omega) (ih (idx + 1))
          · rw [if_neg h4]
    · rw [if_neg h1]

theorem alnumScanF_le (isalnum : Char → Bool) (t : List Char) :
    ∀ fuel idx, idx ≤ t.length → alnumScanF isalnum t fuel idx ≤ t.length := by
  intro fuel
  induction fuel with
  | zero => intro idx h; exact h
  | succ fuel ih =>
    intro idx h
    simp only [alnumScanF]
    by_cases h1 : idx < t.length
    · rw [if_pos h1]
      by_cases h2 : isalnum (t.getD idx default) = true
      · rw [if_pos h2]
        exact ih (idx + 1) (by omega)
      · rw [if_neg h2]
        by_cases h3 : (t.getD idx default = apostrophe ∨
            t.getD idx default = rightQuote) ∧ idx + 1 < t.length ∧
            isalnum (t.getD (idx - 1) default) ∧ isalnum (t.getD (idx + 1) default)
        · rw [if_pos h3]
          exact ih (idx + 1) (by omega)
        · rw [if_neg h3]
          by_cases h4 : t.getD idx default = '-' ∧ idx + 1 < t.length ∧
              isalnum (t.getD (idx - 1) default) ∧ isalnum (t.getD (idx + 1) default)
          · rw [if_pos h4]
            exact ih (idx + 1) (by omega)
          · rw [if_neg h4]
            exact h
    · rw [if_neg h1]
      exact h

theorem iterSpansF_props (isdigit isalnum : Char → Bool) (t : List Char) :
    ∀ fuel idx,
      (∀ sp ∈ iterSpansF isdigit isalnum t fuel idx,
        idx ≤ sp.1 ∧ sp.1 < sp.2 ∧ sp.2 ≤ t.length) ∧
      List.Pairwise (fun a b : Nat × Nat => a.2 ≤ b.1)
        (iterSpansF isdigit isalnum t fuel idx) := by
  intro fuel
  induction fuel with
  | zero =>
    intro idx
    exact ⟨fun sp hp => absurd hp (List.not_mem_nil sp), List.Pairwise.nil⟩
  | succ fuel ih =>
    intro idx
    simp only [iterSpansF]
    by_cases h1 : idx < t.length
    · rw [if_pos h1]
      by_cases h2 : isdigit (t.getD idx default) = true
      · rw [if_pos h2]
        obtain ⟨ihm, ihpw⟩ := ih (digitScan isdigit t (idx + 1))
        have hge : idx + 1 ≤ digitScan isdigit t (idx + 1) :=
          digitScanF_ge isdigit t t.length (idx + 1)
        have hle : digitScan isdigit t (idx + 1) ≤ t.length :=
          digitScanF_le isdigit t t.length (idx + 1) (by omega)
        refine ⟨?_, ?_⟩
        · intro sp hp
          rcases List.mem_cons.mp hp with hp | hp
          · subst hp
            exact ⟨le_refl _, by omega, hle⟩
          · obtain ⟨hm1, hm2, hm3⟩ := ihm sp hp
            exact ⟨by omega, hm2, hm3⟩
        · refine List.Pairwise.cons ?_ ihpw
          intro sp hp
          exact (ihm sp hp).1
      · rw [if_neg h2]
        by_cases h3 : t.getD idx default = '%' ∨ t.getD idx default = '$' ∨
            t.getD idx default = '€' ∨ t.getD idx default = '£'
        · rw [if_pos h3]
          obtain ⟨ihm, ihpw⟩ := ih (idx + 1)
          refine ⟨?_, ?_⟩
          · intro sp hp
            rcases List.mem_cons.mp hp with hp | hp
            · subst hp
              exact ⟨le_refl _, by omega, by omega⟩
            · obtain ⟨hm1, hm2, hm3⟩ := ihm sp hp
              exact ⟨by omega, hm2, hm3⟩
          · refine List.Pairwise.cons ?_ ihpw
            intro sp hp
            exact (ihm sp hp).1
        · rw [if_neg h3]
          by_cases h4 : isalnum (t.getD idx default) = true
          · rw [if_pos h4]
            obtain ⟨ihm, ihpw⟩ := ih (alnumScan isalnum t (idx + 1))
            have hge : idx + 1 ≤ alnumScan isalnum t (idx + 1) :=
              alnumScanF_ge isalnum t t.length (idx + 1)
            have hle : alnumScan isalnum t (idx + 1) ≤ t.length :=
              alnumScanF_le isalnum t t.length (idx + 1) (by omega)
            refine ⟨?_, ?_⟩
            · intro sp hp
              rcases List.mem_cons.mp hp with hp | hp
              · subst hp
                exact ⟨le_refl _, by omega, hle⟩
              · obtain ⟨hm1, hm2, hm3⟩ := ihm sp hp
                exact ⟨by omega, hm2, hm3⟩
            · refine List.Pairwise.cons ?_ ihpw
              intro sp hp
              exact (ihm sp hp).1
          · rw [if_neg h4]
            obtain ⟨ihm, ihpw⟩ := ih (idx + 1)
            refine ⟨?_, ihpw⟩
            intro sp hp
            obtain ⟨hm1, hm2, hm3⟩ := ihm sp hp
            exact ⟨by omega, hm2, hm3⟩
    · rw [if_neg h1]
      exact ⟨fun sp hp => absurd hp (List.not_mem_nil sp), List.Pairwise.nil⟩

theorem tokenizeLoop_len_sublist (norm : List Char → List Char) (t : List Char) :
    ∀ (spans : List (Nat × Nat)) (st : TokState),
      (tokenizeLoop norm t spans st).1.length =
        (tokenizeLoop norm t spans st).2.1.length ∧
      List.Sublist (tokenizeLoop norm t spans st).2.1 spans := by
  intro spans
  induction spans with
  | nil =>
    intro st
    exact ⟨rfl, List.Sublist.refl []⟩
  | cons sp rest ih =>
    intro st
    simp only [tokenizeLoop]
    by_cases hn : norm (pySlice t sp.1 sp.2) = []
    · rw [dif_pos hn]
      obtain ⟨ih1, ih2⟩ := ih st
      exact ⟨ih1, List.Sublist.cons sp ih2⟩
    · rw [dif_neg hn]
      rcases hv : vocabGet st.vocab (norm (pySlice t sp.1 sp.2)) with _ | tid
      · obtain ⟨ih1, ih2⟩ := ih ⟨st.vocab ++ [(norm (pySlice t sp.1 sp.2), st.next_id)],
          st.next_id + 1⟩
        exact ⟨by simpa using ih1, List.Sublist.cons₂ sp ih2⟩
      · obtain ⟨ih1, ih2⟩ := ih st
        exact ⟨by simpa using ih1, List.Sublist.cons₂ sp ih2⟩

/-- **C9.** For every input string and tokenizer state, the `TokenizedText`
returned by `SimpleTokenizer.tokenize` satisfies the record invariant:
`token_ids` and `token_spans` have equal length; every span `(start, end)`
has `start < end ≤ len(text)`; and the spans are sorted strictly ascending
and pairwise non-overlapping (each span ends no later than the next starts). -/
theorem tokenize_record_invariant (isdigit isalnum : Char → Bool)
    (nfkcCasefold : List Char → List Char) (config : TokenizerConfig)
    (st : TokState) (t : List Char) :
    (tokenize isdigit isalnum (_normalize_token nfkcCasefold isdigit config)
        st t).1.token_ids.length =
      (tokenize isdigit isalnum (_normalize_token nfkcCasefold isdigit config)
        st t).1.token_spans.length ∧
    (∀ sp ∈ (tokenize isdigit isalnum
        (_normalize_token nfkcCasefold isdigit config) st t).1.token_spans,
      sp.1 < sp.2 ∧ sp.2 ≤ t.length) ∧
    List.Pairwise (fun a b : Nat × Nat => a.2 ≤ b.1)
      (tokenize isdigit isalnum (_normalize_token nfkcCasefold isdigit config)
        st t).1.token_spans := by
  obtain ⟨h1, h2⟩ := tokenizeLoop_len_sublist
    (_normalize_token nfkcCasefold isdigit config) t
    (_iter_token_spans isdigit isalnum t) st
  obtain ⟨hm, hpw⟩ := iterSpansF_props isdigit isalnum t t.length 0
  refine ⟨h1, ?_, ?_⟩
  · intro sp hp
    have hmem : sp ∈ _iter_token_spans isdigit isalnum t := h2.subset hp
    obtain ⟨_, hb, hc⟩ := hm sp hmem
    exact ⟨hb, hc⟩
  · exact hpw.sublist h2

/-- Closed witness for `tokenize_record_invariant`. -/
theorem tokenize_record_invariant_witness :
    ((0, 1) : Nat × Nat) ∈ (tokenize (fun c => c.isDigit) (fun c => c.isAlphanum)
        (_normalize_token (fun s => s) (fun c => c.isDigit) ⟨true, true, true⟩)
        initialTokState ['a']).1.token_spans ∧
      ((0 : Nat) < 1 ∧ 1 ≤ (['a'] : List Char).length) :=
  ⟨by decide,
    (tokenize_record_invariant (fun c => c.isDigit) (fun c => c.isAlphanum)
      (fun s => s) ⟨true, true, true⟩ initialTokState ['a']).2.1 (0, 1) (by decide)⟩

/-! ### Vocabulary state invariants -/

/-- The invariant of the tokenizer's private vocabulary: ids start at 1,
stay below `next_id`, and both keys and ids are pairwise distinct. -/
def StateOK (st : TokState) : Prop :=
  1 ≤ st.next_id ∧
  (∀ e ∈ st.vocab, 1 ≤ e.2 ∧ e.2 < st.next_id) ∧
  List.Pairwise (fun a b : List Char × Nat => a.1 ≠ b.1 ∧ a.2 ≠ b.2) st.vocab

theorem initialTokState_ok : StateOK initialTokState :=
  ⟨le_refl 1, fun e he => absurd he (List.not_mem_nil e), List.Pairwise.nil⟩

theorem vocabGet_mem (v : List (List Char × Nat)) (k : List Char) (i : Nat)
    (h : vocabGet v k = some i) : (k, i) ∈ v := by
  induction v with
  | nil => exact absurd h (by simp [vocabGet])
  | cons e v ih =>
    rw [vocabGet] at h
    by_cases he : e.1 = k
    · rw [if_pos he] at h
      have : e = (k, i) := by
        obtain ⟨e1, e2⟩ := e
        simp only at he
        simp only [Option.some.injEq] at h
        rw [he, h]
    -- e = (k, i)
      rw [← this]
      exact List.mem_cons_self e v
    · rw [if_neg he] at h
      exact List.mem_cons_of_mem e (ih h)

theorem vocabGet_none_keys (v : List (List Char × Nat)) (k : List Char)
    (h : vocabGet v k = none) : ∀ e ∈ v, e.1 ≠ k := by
  induction v with
  | nil =>
    intro e he
    exact absurd he (List.not_mem_nil e)
  | cons e v ih =>
    rw [vocabGet] at h
    by_cases he : e.1 = k
    · rw [if_pos he] at h
      exact absurd h (by simp)
    · rw [if_neg he] at h
      intro x hx
      rcases List.mem_cons.mp hx with hx | hx
      · rw [hx]
        exact he
      · exact ih h x hx

theorem vocabGet_append_some (v w : List (List Char × Nat)) (k : List Char) (i : Nat)
    (h : vocabGet v k = some i) : vocabGet (v ++ w) k = some i := by
  induction v with
  | nil => exact absurd h (by simp [vocabGet])
  | cons e v ih =>
    rw [vocabGet] at h
    rw [List.cons_append, vocabGet]
    by_cases he : e.1 = k
    · rw [if_pos he] at h ⊢
      exact h
    · rw [if_neg he] at h ⊢
      exact ih h

theorem vocabGet_append_new (v : List (List Char × Nat)) (k : List Char) (i : Nat)
    (h : vocabGet v k = none) : vocabGet (v ++ [(k, i)]) k = some i := by
  induction v with
  | nil =>
    rw [List.nil_append, vocabGet]
    rw [if_pos rfl]
  | cons e v ih =>
    rw [vocabGet] at h
    rw [List.cons_append, vocabGet]
    by_cases he : e.1 = k
    · rw [if_pos he] at h
      exact absurd h (by simp)
    · rw [if_neg he] at h
      rw [if_neg he]
      exact ih h

theorem vocab_values_inj (v : List (List Char × Nat))
    (hpw : List.Pairwise (fun a b : List Char × Nat => a.1 ≠ b.1 ∧ a.2 ≠ b.2) v)
    (n1 n2 : List Char) (i : Nat) (h1 : (n1, i) ∈ v) (h2 : (n2, i) ∈ v) :
    n1 = n2 := by
  induction v with
  | nil => exact absurd h1 (List.not_mem_nil _)
  | cons e v ih =>
    obtain ⟨hhead, htail⟩ := List.pairwise_cons.mp hpw
    rcases List.mem_cons.mp h1 with h1 | h1
    · rcases List.mem_cons.mp h2 with h2 | h2
      · rw [← h1] at h2
        exact (congrArg Prod.fst h2.symm : n1 = n2)
      · exfalso
        have := (hhead (n2, i) h2).2
        rw [← h1] at this
        exact this rfl
    · rcases List.mem_cons.mp h2 with h2 | h2
      · exfalso
        have := (hhead (n1, i) h1).2
        rw [← h2] at this
        exact this rfl
      · exact ih htail h1 h2

theorem getD_map_lt {α β : Type} (f : α → β) (l : List α) (d1 : β) (d2 : α) :
    ∀ i, i < l.length → (l.map f).getD i d1 = f (l.getD i d2) := by
  induction l with
  | nil =>
    intro i hi
    exact absurd hi (by simp)
  | cons x xs ih =>
    intro i hi
    cases i with
    | zero => rfl
    | succ i =>
      simp only [List.map_cons, List.getD_cons_succ]
      exact ih i (by simpa using hi)

theorem getD_mem_of_lt {α : Type} (l : List α) (d : α) :
    ∀ i, i < l.length → l.getD i d ∈ l := by
  induction l with
  | nil =>
    intro i hi
    exact absurd hi (by simp)
  | cons x xs ih =>
    intro i hi
    cases i with
    | zero => exact List.mem_cons_self x xs
    | succ i =>
      simp only [List.getD_cons_succ]
      exact List.mem_cons_of_mem x (ih i (by simpa using hi))

theorem tokenizeLoop_spec (norm : List Char → List Char) (t : List Char) :
    ∀ (spans : List (Nat × Nat)) (st : TokState), StateOK st →
      (∃ ext, (tokenizeLoop norm t spans st).2.2.vocab = st.vocab ++ ext) ∧
      StateOK (tokenizeLoop norm t spans st).2.2 ∧
      (tokenizeLoop norm t spans st).2.1 =
        spans.filter (fun sp => decide (norm (pySlice t sp.1 sp.2) ≠ [])) ∧
      (tokenizeLoop norm t spans st).1 =
        (spans.filter (fun sp => decide (norm (pySlice t sp.1 sp.2) ≠ []))).map
          (fun sp => (vocabGet (tokenizeLoop norm t spans st).2.2.vocab
            (norm (pySlice t sp.1 sp.2))).getD 0) ∧
      (∀ sp ∈ spans, norm (pySlice t sp.1 sp.2) ≠ [] →
        vocabGet (tokenizeLoop norm t spans st).2.2.vocab
          (norm (pySlice t sp.1 sp.2)) ≠ none) := by
  intro spans
  induction spans with
  | nil =>
    intro st hok
    refine ⟨⟨[], by simp [tokenizeLoop]⟩, hok, rfl, rfl, ?_⟩
    intro sp hp
    exact absurd hp (List.not_mem_nil sp)
  | cons sp rest ih =>
    intro st hok
    by_cases hn : norm (pySlice t sp.1 sp.2) = []
    · have hloop : tokenizeLoop norm t (sp :: rest) st = tokenizeLoop norm t rest st := by
        simp only [tokenizeLoop]
        rw [dif_pos hn]
      have hfilter : (sp :: rest).filter
          (fun x => decide (norm (pySlice t x.1 x.2) ≠ [])) =
          rest.filter (fun x => decide (norm (pySlice t x.1 x.2) ≠ [])) := by
        rw [List.filter_cons]
        simp [hn]
      rw [hloop, hfilter]
      obtain ⟨hext, hok', hspans, hids, hlook⟩ := ih st hok
      refine ⟨hext, hok', hspans, hids, ?_⟩
      intro x hx hxn
      rcases List.mem_cons.mp hx with hx | hx
      · rw [hx] at hxn
        exact absurd hn hxn
      · exact hlook x hx hxn
    · have hfilter : (sp :: rest).filter
          (fun x => decide (norm (pySlice t x.1 x.2) ≠ [])) =
          sp :: rest.filter (fun x => decide (norm (pySlice t x.1 x.2) ≠ [])) := by
        rw [List.filter_cons]
        simp [hn]
      rcases hv : vocabGet st.vocab (norm (pySlice t sp.1 sp.2)) with _ | tid
      · -- new token: insert into the vocabulary
        have hloop : tokenizeLoop norm t (sp :: rest) st =
            ((tokenizeLoop norm t rest
                ⟨st.vocab ++ [(norm (pySlice t sp.1 sp.2), st.next_id)],
                  st.next_id + 1⟩).1.cons st.next_id,
             (tokenizeLoop norm t rest
                ⟨st.vocab ++ [(norm (pySlice t sp.1 sp.2), st.next_id)],
                  st.next_id + 1⟩).2.1.cons sp,
             (tokenizeLoop norm t rest
                ⟨st.vocab ++ [(norm (pySlice t sp.1 sp.2), st.next_id)],
                  st.next_id + 1⟩).2.2) := by
          simp only [tokenizeLoop]
          rw [dif_neg hn, hv]
        have hok1 : StateOK ⟨st.vocab ++ [(norm (pySlice t sp.1 sp.2), st.next_id)],
            st.next_id + 1⟩ := by
          obtain ⟨h1, h2, h3⟩ := hok
          unfold StateOK
          dsimp only
          refine ⟨by omega, ?_, ?_⟩
          · intro e he
            rcases List.mem_append.mp he with he | he
            · exact ⟨(h2 e he).1, by
                have := (h2 e he).2
                omega⟩
            · simp only [List.mem_singleton] at he
              subst he
              exact ⟨h1, by omega⟩
          · rw [List.pairwise_append]
            refine ⟨h3, List.pairwise_singleton _ _, ?_⟩
            intro a ha b hb
            simp only [List.mem_singleton] at hb
            subst hb
            refine ⟨vocabGet_none_keys st.vocab _ hv a ha, ?_⟩
            have := (h2 a ha).2
            simp only
            omega
        obtain ⟨⟨ext', hext'⟩, hok', hspans, hids, hlook⟩ := ih
          ⟨st.vocab ++ [(norm (pySlice t sp.1 sp.2), st.next_id)], st.next_id + 1⟩ hok1
        rw [hloop, hfilter]
        dsimp only
        have hlookup : vocabGet (tokenizeLoop norm t rest
            ⟨st.vocab ++ [(norm (pySlice t sp.1 sp.2), st.next_id)],
              st.next_id + 1⟩).2.2.vocab (norm (pySlice t sp.1 sp.2)) =
            some st.next_id := by
          rw [hext']
          exact vocabGet_append_some _ ext' _ _
            (vocabGet_append_new st.vocab _ _ hv)
        refine ⟨⟨(norm (pySlice t sp.1 sp.2), st.next_id) :: ext', ?_⟩, hok', ?_, ?_, ?_⟩
        · rw [hext']
          simp
        · rw [hspans]
        · rw [List.map_cons, hlookup]
          rw [hids]
          rfl
        · intro x hx hxn
          rcases List.mem_cons.mp hx with hx | hx
          · rw [hx, hlookup]
            exact fun hc => Option.noConfusion hc
          · exact hlook x hx hxn
      · -- known token: the id comes from the vocabulary
        have hloop : tokenizeLoop norm t (sp :: rest) st =
            ((tokenizeLoop norm t rest st).1.cons tid,
             (tokenizeLoop norm t rest st).2.1.cons sp,
             (tokenizeLoop norm t rest st).2.2) := by
          simp only [tokenizeLoop]
          rw [dif_neg hn, hv]
        obtain ⟨⟨ext', hext'⟩, hok', hspans, hids, hlook⟩ := ih st hok
        rw [hloop, hfilter]
        dsimp only
        have hlookup : vocabGet (tokenizeLoop norm t rest st).2.2.vocab
            (norm (pySlice t sp.1 sp.2)) = some tid := by
          rw [hext']
          exact vocabGet_append_some _ ext' _ _ hv
        refine ⟨⟨ext', hext'⟩, hok', ?_, ?_, ?_⟩
        · rw [hspans]
        · rw [List.map_cons, hlookup]
          rw [hids]
          rfl
        · intro x hx hxn
          rcases List.mem_cons.mp hx with hx | hx
          · rw [hx, hlookup]
            exact fun hc => Option.noConfusion hc
          · exact hlook x hx hxn

theorem tokenizeAll_spec (isdigit isalnum : Char → Bool)
    (norm : List Char → List Char) :
    ∀ (texts : List (List Char)) (st : TokState), StateOK st →
      (∃ ext, (tokenizeAll isdigit isalnum norm st texts).2.vocab =
        st.vocab ++ ext) ∧
      StateOK (tokenizeAll isdigit isalnum norm st texts).2 ∧
      (tokenizeAll isdigit isalnum norm st texts).1.length = texts.length ∧
      (∀ a, a < texts.length →
        ((tokenizeAll isdigit isalnum norm st texts).1.getD a default =
          ⟨texts.getD a [],
            (keptNorms isdigit isalnum norm (texts.getD a [])).map
              (fun n => (vocabGet
                (tokenizeAll isdigit isalnum norm st texts).2.vocab n).getD 0),
            keptSpans isdigit isalnum norm (texts.getD a [])⟩) ∧
        (∀ n ∈ keptNorms isdigit isalnum norm (texts.getD a []),
          vocabGet (tokenizeAll isdigit isalnum norm st texts).2.vocab n ≠ none)) := by
  intro texts
  induction texts with
  | nil =>
    intro st hok
    refine ⟨⟨[], by simp [tokenizeAll]⟩, hok, rfl, ?_⟩
    intro a ha
    exact absurd ha (by simp)
  | cons t ts ih =>
    intro st hok
    obtain ⟨⟨ext1, hext1⟩, hok1, hspans0, hids0, hlook0⟩ :=
      tokenizeLoop_spec norm t (_iter_token_spans isdigit isalnum t) st hok
    obtain ⟨⟨ext2, hext2⟩, hokF, hlen, hres⟩ :=
      ih (tokenize isdigit isalnum norm st t).2 hok1
    have hstF : (tokenizeAll isdigit isalnum norm st (t :: ts)).2 =
        (tokenizeAll isdigit isalnum norm
          (tokenize isdigit isalnum norm st t).2 ts).2 := rfl
    have hreslist : (tokenizeAll isdigit isalnum norm st (t :: ts)).1 =
        (tokenize isdigit isalnum norm st t).1 ::
          (tokenizeAll isdigit isalnum norm
            (tokenize isdigit isalnum norm st t).2 ts).1 := rfl
    have hst1vocab : (tokenize isdigit isalnum norm st t).2.vocab =
        st.vocab ++ ext1 := hext1
    refine ⟨⟨ext1 ++ ext2, ?_⟩, ?_, ?_, ?_⟩
    · rw [hstF, hext2, hst1vocab, List.append_assoc]
    · rw [hstF]
      exact hokF
    · rw [hreslist]
      simp only [List.length_cons]
      rw [hlen]
    · intro a ha
      cases a with
      | zero =>
        simp only [List.getD_cons_zero]
        have hsome : ∀ sp ∈ keptSpans isdigit isalnum norm t,
            vocabGet (tokenize isdigit isalnum norm st t).2.vocab
              (norm (pySlice t sp.1 sp.2)) ≠ none := by
          intro sp hsp
          have hmem : sp ∈ _iter_token_spans isdigit isalnum t :=
            List.mem_of_mem_filter hsp
          have hpred : norm (pySlice t sp.1 sp.2) ≠ [] := by
            have := List.of_mem_filter hsp
            simpa using this
          exact hlook0 sp hmem hpred
        have hstable : ∀ sp ∈ keptSpans isdigit isalnum norm t,
            vocabGet (tokenizeAll isdigit isalnum norm st (t :: ts)).2.vocab
              (norm (pySlice t sp.1 sp.2)) =
            vocabGet (tokenize isdigit isalnum norm st t).2.vocab
              (norm (pySlice t sp.1 sp.2)) := by
          intro sp hsp
          rcases hv : vocabGet (tokenize isdigit isalnum norm st t).2.vocab
              (norm (pySlice t sp.1 sp.2)) with _ | v
          · exact absurd hv (hsome sp hsp)
          · rw [hstF, hext2]
            exact vocabGet_append_some _ ext2 _ _ hv
        constructor
        · rw [hreslist]
          simp only [List.getD_cons_zero]
          have h1 : (tokenize isdigit isalnum norm st t).1 =
              ⟨t, (tokenizeLoop norm t (_iter_token_spans isdigit isalnum t) st).1,
                (tokenizeLoop norm t (_iter_token_spans isdigit isalnum t) st).2.1⟩ :=
            rfl
          rw [h1]
          have h2 : (tokenizeLoop norm t (_iter_token_spans isdigit isalnum t) st).2.1 =
              keptSpans isdigit isalnum norm t := hspans0
          have h3 : (tokenizeLoop norm t (_iter_token_spans isdigit isalnum t) st).1 =
              (keptNorms isdigit isalnum norm t).map
                (fun n => (vocabGet
                  (tokenizeAll isdigit isalnum norm st (t :: ts)).2.vocab n).getD 0) := by
            rw [hids0]
            unfold keptNorms
            rw [List.map_map]
            refine List.map_congr_left ?_
            intro sp hsp
            have hst' := hstable sp hsp
            simp only [Function.comp]
            rw [hst']
            rfl
          rw [h2, h3]
        · intro n hn
          unfold keptNorms at hn
          simp only [List.mem_map] at hn
          obtain ⟨sp, hsp, rfl⟩ := hn
          rw [hstable sp hsp]
          exact hsome sp hsp
      | succ k =>
        have hk : k < ts.length := by simpa using ha
        have hgd : (tokenizeAll isdigit isalnum norm st (t :: ts)).1.getD (k + 1)
            default = (tokenizeAll isdigit isalnum norm
              (tokenize isdigit isalnum norm st t).2 ts).1.getD k default := by
          rw [hreslist]
          simp only [List.getD_cons_succ]
        have hgt : (t :: ts).getD (k + 1) [] = ts.getD k [] := by
          simp only [List.getD_cons_succ]
        obtain ⟨hr1, hr2⟩ := hres k hk
        rw [hgd, hgt, hstF]
        exact ⟨hr1, hr2⟩

/-- **C10.** For a single `SimpleTokenizer` instance across any sequence of
`tokenize` calls starting from the fresh state: every emitted token id is
`≥ 1`; two emitted tokens (in any two calls) receive equal ids exactly when
their normalised forms (per `_normalize_token`: NFKC + casefold, curly to
straight apostrophe, commas stripped from number tokens, currency/percent
words) are equal; and re-tokenizing the same string yields an identical
`TokenizedText`. -/
theorem tokenizer_id_correspondence (isdigit isalnum : Char → Bool)
    (nfkcCasefold : List Char → List Char) (config : TokenizerConfig)
    (texts : List (List Char)) :
    (∀ a, a < texts.length →
      ∀ tid ∈ ((tokenizeAll isdigit isalnum
          (_normalize_token nfkcCasefold isdigit config)
          initialTokState texts).1.getD a default).token_ids, 1 ≤ tid) ∧
    (∀ a b, a < texts.length → b < texts.length →
      ∀ i k,
        i < (keptNorms isdigit isalnum
          (_normalize_token nfkcCasefold isdigit config) (texts.getD a [])).length →
        k < (keptNorms isdigit isalnum
          (_normalize_token nfkcCasefold isdigit config) (texts.getD b [])).length →
        (((tokenizeAll isdigit isalnum
            (_normalize_token nfkcCasefold isdigit config)
            initialTokState texts).1.getD a default).token_ids.getD i 0 =
          ((tokenizeAll isdigit isalnum
            (_normalize_token nfkcCasefold isdigit config)
            initialTokState texts).1.getD b default).token_ids.getD k 0 ↔
         (keptNorms isdigit isalnum
            (_normalize_token nfkcCasefold isdigit config)
            (texts.getD a [])).getD i [] =
          (keptNorms isdigit isalnum
            (_normalize_token nfkcCasefold isdigit config)
            (texts.getD b [])).getD k [])) ∧
    (∀ a b, a < texts.length → b < texts.length →
      texts.getD a [] = texts.getD b [] →
      (tokenizeAll isdigit isalnum
          (_normalize_token nfkcCasefold isdigit config)
          initialTokState texts).1.getD a default =
        (tokenizeAll isdigit isalnum
          (_normalize_token nfkcCasefold isdigit config)
          initialTokState texts).1.getD b default) := by
  obtain ⟨_, hokF, _, hres⟩ := tokenizeAll_spec isdigit isalnum
    (_normalize_token nfkcCasefold isdigit config) texts initialTokState
    initialTokState_ok
  refine ⟨?_, ?_, ?_⟩
  · intro a ha tid htid
    obtain ⟨hr, hlook⟩ := hres a ha
    rw [hr] at htid
    dsimp only at htid
    simp only [List.mem_map] at htid
    obtain ⟨n, hn, rfl⟩ := htid
    rcases hv : vocabGet (tokenizeAll isdigit isalnum
        (_normalize_token nfkcCasefold isdigit config)
        initialTokState texts).2.vocab n with _ | v
    · exact absurd hv (hlook n hn)
    · have hmem := vocabGet_mem _ _ _ hv
      have := hokF.2.1 _ hmem
      simpa using this.1
  · intro a b ha hb i k hi hk
    obtain ⟨hra, hlooka⟩ := hres a ha
    obtain ⟨hrb, hlookb⟩ := hres b hb
    rw [hra, hrb]
    dsimp only
    rw [getD_map_lt _ _ 0 [] i hi, getD_map_lt _ _ 0 [] k hk]
    have hna := hlooka _ (getD_mem_of_lt _ [] i hi)
    have hnb := hlookb _ (getD_mem_of_lt _ [] k hk)
    rcases hv1 : vocabGet (tokenizeAll isdigit isalnum
        (_normalize_token nfkcCasefold isdigit config)
        initialTokState texts).2.vocab
        ((keptNorms isdigit isalnum
          (_normalize_token nfkcCasefold isdigit config)
          (texts.getD a [])).getD i []) with _ | v1
    · exact absurd hv1 hna
    · rcases hv2 : vocabGet (tokenizeAll isdigit isalnum
          (_normalize_token nfkcCasefold isdigit config)
          initialTokState texts).2.vocab
          ((keptNorms isdigit isalnum
            (_normalize_token nfkcCasefold isdigit config)
            (texts.getD b [])).getD k []) with _ | v2
      · exact absurd hv2 hnb
      · simp only [Option.getD_some]
        constructor
        · intro heq
          subst heq
          exact vocab_values_inj _ hokF.2.2 _ _ v1
            (vocabGet_mem _ _ _ hv1) (vocabGet_mem _ _ _ hv2)
        · intro heq
          rw [heq] at hv1
          rw [hv1] at hv2
          exact (Option.some.injEq _ _).mp hv2
  · intro a b ha hb heq
    obtain ⟨hra, _⟩ := hres a ha
    obtain ⟨hrb, _⟩ := hres b hb
    rw [hra, hrb, heq]

/-- Closed witness for `tokenizer_id_correspondence`: tokenizing the same
string twice yields identical results. -/
theorem tokenizer_id_correspondence_witness :
    (tokenizeAll (fun c => c.isDigit) (fun c => c.isAlphanum)
        (_normalize_token (fun s => s) (fun c => c.isDigit) ⟨true, true, true⟩)
        initialTokState [['a'], ['a']]).1.getD 0 default =
      (tokenizeAll (fun c => c.isDigit) (fun c => c.isAlphanum)
        (_normalize_token (fun s => s) (fun c => c.isDigit) ⟨true, true, true⟩)
        initialTokState [['a'], ['a']]).1.getD 1 default :=
  (tokenizer_id_correspondence (fun c => c.isDigit) (fun c => c.isAlphanum)
    (fun s => s) ⟨true, true, true⟩ [['a'], ['a']]).2.2 0 1
    (by decide) (by decide) (by decide)

end CiteRight
